import Mathlib

/-!
Verification development for the XChat end-to-end encrypted messaging core
(`src/crypto.ts`, `src/App.vue`, `src/composables/useSupabase.ts`).

Bytes are modelled as `Nat` (with `< 256` stated where it matters) and byte
strings / JS strings as `List Nat` (character codes).  Cryptographic
primitives from tweetnacl (SHA-512, the XSalsa20 keystream, the Poly1305
tag, Curve25519) are modelled by deterministic executable stand-in
functions of the right shape; none of the theorems below depend on their
internal structure, only on the data flow of the repository's own code,
which is translated function by function.
-/

namespace XChat

/-- Stand-in byte mixer used to model the opaque cryptographic primitives
(SHA-512 compression, XSalsa20 keystream, Poly1305 tag, Curve25519).
Deterministic and executable; its internals are irrelevant to the theorems. -/
def mixByte (seed : List Nat) : Nat :=
  (seed.foldl (fun acc b => (acc * 31 + b + 7) % 65536) 17) % 256

/-- Model of `nacl.hash` (SHA-512): 64 output bytes, each `< 256`. -/
def naclHash (input : List Nat) : List Nat :=
  (List.range 64).map (fun j => mixByte (input ++ [j]))

/-- `kdf` from `crypto.ts`: `nacl.hash(input).slice(0, 32)`. -/
def kdf (input : List Nat) : List Nat :=
  (naclHash input).take 32

/-- Model of `nacl.box.before(theirPublicKey, ourSecretKey)`: the raw
32-byte Diffie-Hellman output (Curve25519 scalar multiplication followed by
HSalsa20, before any chain KDF is applied). -/
def dhOutput (theirPublicKey ourSecretKey : List Nat) : List Nat :=
  (List.range 32).map (fun j => mixByte (theirPublicKey ++ ourSecretKey ++ [j]))

theorem naclHash_length (input : List Nat) : (naclHash input).length = 64 := by
  simp [naclHash]

theorem kdf_length (input : List Nat) : (kdf input).length = 32 := by
  simp [kdf, naclHash_length]

theorem dhOutput_length (p s : List Nat) : (dhOutput p s).length = 32 := by
  simp [dhOutput]

/-! ### Base64 (tweetnacl-util `encodeBase64` / `decodeBase64`) -/

/-- The base64 alphabet as character codes: `A-Z a-z 0-9 + /`. -/
def b64Alphabet : List Nat :=
  [65, 66, 67, 68, 69, 70, 71, 72, 73, 74, 75, 76, 77, 78, 79, 80, 81, 82,
   83, 84, 85, 86, 87, 88, 89, 90,
   97, 98, 99, 100, 101, 102, 103, 104, 105, 106, 107, 108, 109, 110, 111,
   112, 113, 114, 115, 116, 117, 118, 119, 120, 121, 122,
   48, 49, 50, 51, 52, 53, 54, 55, 56, 57, 43, 47]

/-- Character code of the base64 digit with 6-bit value `n`. -/
def b64Char (n : Nat) : Nat := b64Alphabet.getD n 0

/-- 6-bit value of a base64 character code, `none` for a non-digit. -/
def b64Val (c : Nat) : Option Nat :=
  (List.range 64).find? (fun n => b64Char n = c)

/-- Model of tweetnacl-util `encodeBase64`: bytes to base64 character codes
(with `=` padding, code 61). -/
def encodeBase64 : List Nat → List Nat
  | b1 :: b2 :: b3 :: rest =>
      b64Char (b1 / 4) :: b64Char (b1 % 4 * 16 + b2 / 16) ::
      b64Char (b2 % 16 * 4 + b3 / 64) :: b64Char (b3 % 64) :: encodeBase64 rest
  | [b1, b2] => [b64Char (b1 / 4), b64Char (b1 % 4 * 16 + b2 / 16), b64Char (b2 % 16 * 4), 61]
  | [b1] => [b64Char (b1 / 4), b64Char (b1 % 4 * 16), 61, 61]
  | [] => []

/-- Model of tweetnacl-util `decodeBase64` (via `atob`): base64 character
codes back to bytes; `none` models the exception thrown on invalid input. -/
def decodeBase64 : List Nat → Option (List Nat)
  | [] => some []
  | c1 :: c2 :: c3 :: c4 :: rest =>
      match b64Val c1, b64Val c2 with
      | some v1, some v2 =>
          if c3 = 61 then
            if c4 = 61 ∧ rest = [] then some [v1 * 4 + v2 / 16] else none
          else
            match b64Val c3 with
            | some v3 =>
                if c4 = 61 then
                  if rest = [] then some [v1 * 4 + v2 / 16, v2 % 16 * 16 + v3 / 4] else none
                else
                  match b64Val c4, decodeBase64 rest with
                  | some v4, some bs =>
                      some ((v1 * 4 + v2 / 16) :: (v2 % 16 * 16 + v3 / 4) ::
                            ((v3 % 4 * 64 + v4) :: bs))
                  | _, _ => none
            | none => none
      | _, _ => none
  | _ => none

theorem b64Val_b64Char : ∀ n < 64, b64Val (b64Char n) = some n := by decide

theorem b64Char_ne_pad : ∀ n < 64, b64Char n ≠ 61 := by decide

theorem decodeBase64_encodeBase64 (bs : List Nat) (h : ∀ b ∈ bs, b < 256) :
    decodeBase64 (encodeBase64 bs) = some bs := by
  induction bs using encodeBase64.induct with
  | case1 b1 b2 b3 rest ih =>
      have hb1 : b1 < 256 := h _ (by simp)
      have hb2 : b2 < 256 := h _ (by simp)
      have hb3 : b3 < 256 := h _ (by simp)
      have h1 : b64Val (b64Char (b1 / 4)) = some (b1 / 4) :=
        b64Val_b64Char _ (by omega)
      have h2 : b64Val (b64Char (b1 % 4 * 16 + b2 / 16)) = some (b1 % 4 * 16 + b2 / 16) :=
        b64Val_b64Char _ (by omega)
      have h3 : b64Val (b64Char (b2 % 16 * 4 + b3 / 64)) = some (b2 % 16 * 4 + b3 / 64) :=
        b64Val_b64Char _ (by omega)
      have h4 : b64Val (b64Char (b3 % 64)) = some (b3 % 64) :=
        b64Val_b64Char _ (by omega)
      have hne3 : b64Char (b2 % 16 * 4 + b3 / 64) ≠ 61 := b64Char_ne_pad _ (by omega)
      have hne4 : b64Char (b3 % 64) ≠ 61 := b64Char_ne_pad _ (by omega)
      have ih' := ih (fun b hb => h b (by simp [hb]))
      simp only [encodeBase64, decodeBase64, h1, h2, h3, h4,
        if_neg hne3, if_neg hne4, ih']
      simp only [Option.some.injEq, List.cons.injEq]
      refine ⟨by omega, by omega, by omega, trivial⟩
  | case2 b1 b2 =>
      have hb1 : b1 < 256 := h _ (by simp)
      have hb2 : b2 < 256 := h _ (by simp)
      have h1 : b64Val (b64Char (b1 / 4)) = some (b1 / 4) :=
        b64Val_b64Char _ (by omega)
      have h2 : b64Val (b64Char (b1 % 4 * 16 + b2 / 16)) = some (b1 % 4 * 16 + b2 / 16) :=
        b64Val_b64Char _ (by omega)
      have h3 : b64Val (b64Char (b2 % 16 * 4)) = some (b2 % 16 * 4) :=
        b64Val_b64Char _ (by omega)
      have hne3 : b64Char (b2 % 16 * 4) ≠ 61 := b64Char_ne_pad _ (by omega)
      simp only [encodeBase64, decodeBase64, h1, h2, h3, if_neg hne3, if_pos rfl]
      simp only [if_pos, Option.some.injEq, List.cons.injEq, and_true, reduceIte]
      constructor <;> omega
  | case3 b1 =>
      have hb1 : b1 < 256 := h _ (by simp)
      have h1 : b64Val (b64Char (b1 / 4)) = some (b1 / 4) :=
        b64Val_b64Char _ (by omega)
      have h2 : b64Val (b64Char (b1 % 4 * 16)) = some (b1 % 4 * 16) :=
        b64Val_b64Char _ (by omega)
      simp only [encodeBase64, decodeBase64, h1, h2, if_pos rfl]
      simp only [and_self, if_pos, Option.some.injEq, List.cons.injEq, and_true, reduceIte]
      omega
  | case4 =>
      simp [encodeBase64, decodeBase64]

theorem encodeBase64_lt (bs : List Nat) : ∀ c ∈ encodeBase64 bs, c < 256 := by
  have hchar : ∀ n, b64Char n < 256 := by
    intro n
    by_cases hn : n < 64
    · revert hn; revert n; decide
    · have hlen : b64Alphabet.length ≤ n := by
        have h64 : b64Alphabet.length = 64 := rfl
        omega
      simp [b64Char, List.getD, List.getElem?_eq_none hlen]
  induction bs using encodeBase64.induct with
  | case1 b1 b2 b3 rest ih =>
      intro c hc
      simp only [encodeBase64, List.mem_cons] at hc
      rcases hc with rfl | rfl | rfl | rfl | hc
      · exact hchar _
      · exact hchar _
      · exact hchar _
      · exact hchar _
      · exact ih c hc
  | case2 b1 b2 =>
      intro c hc
      simp only [encodeBase64, List.mem_cons, List.not_mem_nil, or_false] at hc
      rcases hc with rfl | rfl | rfl | rfl
      · exact hchar _
      · exact hchar _
      · exact hchar _
      · omega
  | case3 b1 =>
      intro c hc
      simp only [encodeBase64, List.mem_cons, List.not_mem_nil, or_false] at hc
      rcases hc with rfl | rfl | rfl | rfl
      · exact hchar _
      · exact hchar _
      · omega
      · omega
  | case4 => simp [encodeBase64]

/-! ### `nacl.secretbox` (XSalsa20-Poly1305) -/

/-- Model of one byte of the XSalsa20 keystream at position `i` under
`key` and `nonce`. -/
def streamByte (key nonce : List Nat) (i : Nat) : Nat :=
  mixByte (key ++ nonce ++ [i])

/-- XOR a byte string with the keystream, starting at position `i`. -/
def xorKeystream (key nonce : List Nat) : List Nat → Nat → List Nat
  | [], _ => []
  | b :: bs, i => (b ^^^ streamByte key nonce i) :: xorKeystream key nonce bs (i + 1)

/-- Model of the 16-byte Poly1305 authenticator over the encrypted body. -/
def polyTag (key nonce body : List Nat) : List Nat :=
  (List.range 16).map (fun j => mixByte (key ++ nonce ++ body ++ [j]))

/-- Model of `nacl.secretbox(plain, nonce, key)`: authentication tag
followed by the keystream-encrypted body. -/
def secretbox (plain nonce key : List Nat) : List Nat :=
  let body := xorKeystream key nonce plain 0
  polyTag key nonce body ++ body

/-- Model of `nacl.secretbox.open(ct, nonce, key)`: `none` models the
`null` returned on an authentication failure (including a too-short
ciphertext). -/
def secretboxOpen (ct nonce key : List Nat) : Option (List Nat) :=
  if ct.length < 16 then none
  else
    let tag := ct.take 16
    let body := ct.drop 16
    if tag = polyTag key nonce body then some (xorKeystream key nonce body 0)
    else none

theorem xorKeystream_length (key nonce bs : List Nat) (i : Nat) :
    (xorKeystream key nonce bs i).length = bs.length := by
  induction bs generalizing i with
  | nil => simp [xorKeystream]
  | cons b bs ih => simp [xorKeystream, ih]

theorem xorKeystream_xorKeystream (key nonce bs : List Nat) (i : Nat) :
    xorKeystream key nonce (xorKeystream key nonce bs i) i = bs := by
  induction bs generalizing i with
  | nil => simp [xorKeystream]
  | cons b bs ih =>
      simp only [xorKeystream, List.cons.injEq]
      exact ⟨by rw [Nat.xor_assoc, Nat.xor_self, Nat.xor_zero], ih (i + 1)⟩

theorem xorKeystream_lt (key nonce bs : List Nat) (i : Nat) (h : ∀ b ∈ bs, b < 256) :
    ∀ c ∈ xorKeystream key nonce bs i, c < 256 := by
  induction bs generalizing i with
  | nil => simp [xorKeystream]
  | cons b bs ih =>
      intro c hc
      simp only [xorKeystream, List.mem_cons] at hc
      rcases hc with rfl | hc
      · have hb : b < 2 ^ 8 := h b (by simp)
        have hs : streamByte key nonce i < 2 ^ 8 := by
          simp only [streamByte, mixByte]
          omega
        calc b ^^^ streamByte key nonce i < 2 ^ 8 := Nat.xor_lt_two_pow hb hs
          _ = 256 := by norm_num
      · exact ih (i + 1) (fun b hb => h b (by simp [hb])) c hc

theorem polyTag_length (key nonce body : List Nat) : (polyTag key nonce body).length = 16 := by
  simp [polyTag]

theorem polyTag_lt (key nonce body : List Nat) : ∀ c ∈ polyTag key nonce body, c < 256 := by
  intro c hc
  simp only [polyTag, List.mem_map] at hc
  obtain ⟨j, _, rfl⟩ := hc
  simp only [mixByte]
  omega

theorem secretboxOpen_secretbox (plain nonce key : List Nat) :
    secretboxOpen (secretbox plain nonce key) nonce key = some plain := by
  have htag := polyTag_length key nonce (xorKeystream key nonce plain 0)
  simp only [secretbox, secretboxOpen]
  rw [if_neg (by simp only [List.length_append, htag]; omega)]
  rw [List.take_left' htag, List.drop_left' htag]
  rw [if_pos rfl, xorKeystream_xorKeystream]

theorem secretbox_lt (plain nonce key : List Nat) (h : ∀ b ∈ plain, b < 256) :
    ∀ c ∈ secretbox plain nonce key, c < 256 := by
  intro c hc
  simp only [secretbox, List.mem_append] at hc
  rcases hc with hc | hc
  · exact polyTag_lt _ _ _ c hc
  · exact xorKeystream_lt key nonce plain 0 h c hc

/-! ### The structured message payload and its canonical byte encoding

`crypto.ts` serializes a `MessagePayload` with `JSON.stringify` and parses
it back with `JSON.parse`.  The JSON text is modelled as a canonical
injective byte encoding (`serializePayload`) together with its inverse
(`parsePayload`, `none` modelling a `JSON.parse` exception or a payload
missing its required `ratchetKey` field). -/

/-- `Attachment` from `crypto.ts`: `{type, mime, data, name?}` with all
string fields as byte lists. -/
structure Attachment where
  atype : List Nat
  mime : List Nat
  data : List Nat
  name : Option (List Nat)
deriving DecidableEq

/-- `MessagePayload` from `crypto.ts`: `{text?, attachments?, ratchetKey}`. -/
structure MessagePayload where
  text : Option (List Nat)
  attachments : Option (List Attachment)
  ratchetKey : List Nat
deriving DecidableEq

/-- Self-delimiting encoding of a natural number (framing of the canonical
payload encoding). -/
def encNat (n : Nat) : List Nat := List.replicate n 1 ++ [0]

def parseNat : List Nat → Option (Nat × List Nat)
  | 0 :: rest => some (0, rest)
  | 1 :: rest =>
      match parseNat rest with
      | some (n, rest') => some (n + 1, rest')
      | none => none
  | _ => none

/-- Length-prefixed encoding of a string (byte list). -/
def encStr (s : List Nat) : List Nat := encNat s.length ++ s

def parseStr (bs : List Nat) : Option (List Nat × List Nat) :=
  match parseNat bs with
  | some (n, rest) =>
      if n ≤ rest.length then some (rest.take n, rest.drop n) else none
  | none => none

/-- Encoding of an optional string field. -/
def encOptStr : Option (List Nat) → List Nat
  | none => [0]
  | some s => 1 :: encStr s

def parseOptStr : List Nat → Option (Option (List Nat) × List Nat)
  | 0 :: rest => some (none, rest)
  | 1 :: rest =>
      match parseStr rest with
      | some (s, rest') => some (some s, rest')
      | none => none
  | _ => none

def encAttachment (a : Attachment) : List Nat :=
  encStr a.atype ++ encStr a.mime ++ encStr a.data ++ encOptStr a.name

def parseAttachment (bs : List Nat) : Option (Attachment × List Nat) :=
  match parseStr bs with
  | some (t, r1) =>
      match parseStr r1 with
      | some (m, r2) =>
          match parseStr r2 with
          | some (d, r3) =>
              match parseOptStr r3 with
              | some (n, r4) => some (⟨t, m, d, n⟩, r4)
              | none => none
          | none => none
      | none => none
  | none => none

def parseAttachmentList : Nat → List Nat → Option (List Attachment × List Nat)
  | 0, bs => some ([], bs)
  | n + 1, bs =>
      match parseAttachment bs with
      | some (a, rest) =>
          match parseAttachmentList n rest with
          | some (l, rest') => some (a :: l, rest')
          | none => none
      | none => none

def encOptAttachments : Option (List Attachment) → List Nat
  | none => [0]
  | some l => 1 :: encNat l.length ++ (l.map encAttachment).flatten

def parseOptAttachments : List Nat → Option (Option (List Attachment) × List Nat)
  | 0 :: rest => some (none, rest)
  | 1 :: rest =>
      match parseNat rest with
      | some (n, rest') =>
          match parseAttachmentList n rest' with
          | some (l, rest'') => some (some l, rest'')
          | none => none
      | none => none
  | _ => none

/-- Canonical byte encoding of a `MessagePayload` (model of
`new TextEncoder().encode(JSON.stringify(payload))`). -/
def serializePayload (p : MessagePayload) : List Nat :=
  encOptStr p.text ++ encOptAttachments p.attachments ++ encStr p.ratchetKey

/-- Inverse of `serializePayload` (model of `JSON.parse` on the decrypted
bytes, plus the mandatory access to `payload.ratchetKey`); `none` models a
thrown exception. -/
def parsePayload (bs : List Nat) : Option MessagePayload :=
  match parseOptStr bs with
  | some (t, r1) =>
      match parseOptAttachments r1 with
      | some (a, r2) =>
          match parseStr r2 with
          | some (k, r3) => if r3 = [] then some ⟨t, a, k⟩ else none
          | none => none
      | none => none
  | none => none

theorem parseNat_encNat (n : Nat) (rest : List Nat) :
    parseNat (encNat n ++ rest) = some (n, rest) := by
  induction n with
  | zero => simp [encNat, parseNat]
  | succ n ih =>
      have ih' : parseNat (List.replicate n 1 ++ 0 :: rest) = some (n, rest) := by
        simpa [encNat, List.append_assoc] using ih
      simp only [encNat, List.replicate_succ, List.cons_append, parseNat]
      simp [List.append_assoc, ih']

theorem parseStr_encStr (s rest : List Nat) :
    parseStr (encStr s ++ rest) = some (s, rest) := by
  simp only [encStr, List.append_assoc, parseStr, parseNat_encNat]
  rw [if_pos (by simp), List.take_left' rfl, List.drop_left' rfl]

theorem parseOptStr_encOptStr (o : Option (List Nat)) (rest : List Nat) :
    parseOptStr (encOptStr o ++ rest) = some (o, rest) := by
  cases o with
  | none => simp [encOptStr, parseOptStr]
  | some s => simp [encOptStr, parseOptStr, parseStr_encStr]

theorem parseAttachment_encAttachment (a : Attachment) (rest : List Nat) :
    parseAttachment (encAttachment a ++ rest) = some (a, rest) := by
  simp only [encAttachment, List.append_assoc, parseAttachment,
    parseStr_encStr, parseOptStr_encOptStr]

theorem parseAttachmentList_join (l : List Attachment) (rest : List Nat) :
    parseAttachmentList l.length ((l.map encAttachment).flatten ++ rest) = some (l, rest) := by
  induction l with
  | nil => simp [parseAttachmentList]
  | cons a l ih =>
      simp only [List.map_cons, List.flatten_cons, List.length_cons, List.append_assoc,
        parseAttachmentList, parseAttachment_encAttachment, ih]

theorem parseOptAttachments_encOptAttachments (o : Option (List Attachment)) (rest : List Nat) :
    parseOptAttachments (encOptAttachments o ++ rest) = some (o, rest) := by
  cases o with
  | none => simp [encOptAttachments, parseOptAttachments]
  | some l =>
      simp only [encOptAttachments, List.cons_append, List.append_assoc, parseOptAttachments,
        parseNat_encNat, parseAttachmentList_join]

theorem parsePayload_serializePayload (p : MessagePayload) :
    parsePayload (serializePayload p) = some p := by
  have h := parseStr_encStr p.ratchetKey []
  simp only [List.append_nil] at h
  simp only [serializePayload, List.append_assoc, parsePayload,
    parseOptStr_encOptStr, parseOptAttachments_encOptAttachments, h]
  simp

/-- All bytes of a byte string are genuine bytes. -/
def bytesOk (s : List Nat) : Bool := s.all (· < 256)

def attachmentOk (a : Attachment) : Bool :=
  bytesOk a.atype && bytesOk a.mime && bytesOk a.data &&
    (match a.name with | none => true | some s => bytesOk s)

def payloadOk (p : MessagePayload) : Bool :=
  (match p.text with | none => true | some s => bytesOk s) &&
    (match p.attachments with | none => true | some l => l.all attachmentOk) &&
    bytesOk p.ratchetKey

theorem bytesOk_lt {s : List Nat} (h : bytesOk s = true) : ∀ b ∈ s, b < 256 := by
  intro b hb
  have := List.all_eq_true.mp h b hb
  simpa using this

theorem encNat_lt (n : Nat) : ∀ b ∈ encNat n, b < 256 := by
  intro b hb
  simp only [encNat, List.mem_append, List.mem_replicate, List.mem_singleton] at hb
  rcases hb with ⟨_, rfl⟩ | rfl <;> omega

theorem encStr_lt {s : List Nat} (h : ∀ b ∈ s, b < 256) : ∀ b ∈ encStr s, b < 256 := by
  intro b hb
  simp only [encStr, List.mem_append] at hb
  rcases hb with hb | hb
  · exact encNat_lt _ b hb
  · exact h b hb

theorem encOptStr_lt {o : Option (List Nat)}
    (h : ∀ s, o = some s → ∀ b ∈ s, b < 256) : ∀ b ∈ encOptStr o, b < 256 := by
  cases o with
  | none => simp [encOptStr]
  | some s =>
      intro b hb
      simp only [encOptStr, List.mem_cons] at hb
      rcases hb with rfl | hb
      · omega
      · exact encStr_lt (h s rfl) b hb

theorem encAttachment_lt {a : Attachment} (h : attachmentOk a = true) :
    ∀ b ∈ encAttachment a, b < 256 := by
  simp only [attachmentOk, Bool.and_eq_true] at h
  obtain ⟨⟨⟨h1, h2⟩, h3⟩, h4⟩ := h
  intro b hb
  simp only [encAttachment, List.append_assoc, List.mem_append] at hb
  rcases hb with hb | hb | hb | hb
  · exact encStr_lt (bytesOk_lt h1) b hb
  · exact encStr_lt (bytesOk_lt h2) b hb
  · exact encStr_lt (bytesOk_lt h3) b hb
  · refine encOptStr_lt (fun s hs => ?_) b hb
    rw [hs] at h4
    exact bytesOk_lt h4

theorem encOptAttachments_lt {o : Option (List Attachment)}
    (h : ∀ l, o = some l → l.all attachmentOk = true) :
    ∀ b ∈ encOptAttachments o, b < 256 := by
  cases o with
  | none => simp [encOptAttachments]
  | some l =>
      intro b hb
      simp only [encOptAttachments, List.cons_append, List.mem_cons, List.mem_append] at hb
      rcases hb with rfl | hb | hb
      · omega
      · exact encNat_lt _ b hb
      · simp only [List.mem_flatten, List.mem_map] at hb
        obtain ⟨bs, ⟨a, ha, rfl⟩, hbbs⟩ := hb
        exact encAttachment_lt (List.all_eq_true.mp (h l rfl) a ha) b hbbs

theorem serializePayload_lt {p : MessagePayload} (h : payloadOk p = true) :
    ∀ b ∈ serializePayload p, b < 256 := by
  simp only [payloadOk, Bool.and_eq_true] at h
  obtain ⟨⟨h1, h2⟩, h3⟩ := h
  intro b hb
  simp only [serializePayload, List.append_assoc, List.mem_append] at hb
  rcases hb with hb | hb | hb
  · refine encOptStr_lt (fun s hs => ?_) b hb
    rw [hs] at h1
    exact bytesOk_lt h1
  · refine encOptAttachments_lt (fun l hl => ?_) b hb
    rw [hl] at h2
    exact h2
  · exact encStr_lt (bytesOk_lt h3) b hb

/-! ### `encryptMessage` / `decryptMessage` from `crypto.ts` -/

/-- How a failed decrypt is surfaced: `authFailure` models the typed `null`
returned on an AEAD authentication failure; `exception` models a JavaScript
exception escaping `decryptMessage` (invalid base64, bad nonce/key length,
or a `JSON.parse` / missing-`ratchetKey` failure on the decrypted bytes). -/
inductive DecFailure where
  | authFailure
  | exception
deriving DecidableEq

/-- `encryptMessage(messageKey, payload)` from `crypto.ts`.  The freshly
random nonce is passed explicitly.  Output is `base64(nonce ‖ ciphertext)`. -/
def encryptMessage (nonce messageKey : List Nat) (payload : MessagePayload) : List Nat :=
  let plainBytes := serializePayload payload
  let ciphertext := secretbox plainBytes nonce messageKey
  let combined := nonce ++ ciphertext
  encodeBase64 combined

/-- `decryptMessage(messageKey, encoded)` from `crypto.ts`: base64-decode,
split off the 24-byte nonce, `nacl.secretbox.open`, then parse the
decrypted bytes back into a `MessagePayload`. -/
def decryptMessage (messageKey : List Nat) (encoded : List Nat) :
    Except DecFailure MessagePayload :=
  match decodeBase64 encoded with
  | none => .error .exception
  | some combined =>
      let nonce := combined.take 24
      let ciphertext := combined.drop 24
      if messageKey.length = 32 ∧ nonce.length = 24 then
        match secretboxOpen ciphertext nonce messageKey with
        | none => .error .authFailure
        | some plainBytes =>
            match parsePayload plainBytes with
            | some payload => .ok payload
            | none => .error .exception
      else .error .exception

/-- C1: decrypting the output of `encryptMessage` under the same 32-byte
message key succeeds and returns a payload equal to the input payload. -/
theorem decryptMessage_encryptMessage (messageKey nonce : List Nat) (payload : MessagePayload)
    (hkey : messageKey.length = 32) (hnonce : nonce.length = 24)
    (hnb : ∀ b ∈ nonce, b < 256) (hp : payloadOk payload = true) :
    decryptMessage messageKey (encryptMessage nonce messageKey payload) = .ok payload := by
  have hbytes : ∀ b ∈ nonce ++ secretbox (serializePayload payload) nonce messageKey, b < 256 := by
    intro b hb
    rcases List.mem_append.mp hb with hb | hb
    · exact hnb b hb
    · exact secretbox_lt _ _ _ (serializePayload_lt hp) b hb
  have hdec := decodeBase64_encodeBase64 _ hbytes
  simp only [encryptMessage, decryptMessage, hdec]
  rw [List.take_left' hnonce, List.drop_left' hnonce]
  rw [if_pos ⟨hkey, hnonce⟩]
  rw [secretboxOpen_secretbox]
  simp [parsePayload_serializePayload]

/-- Witness for C1 at a concrete key, nonce and payload. -/
theorem decryptMessage_encryptMessage_witness :
    decryptMessage (List.replicate 32 0)
        (encryptMessage (List.replicate 24 7) (List.replicate 32 0)
          ⟨some [104, 105], none, List.replicate 32 1⟩) =
      .ok ⟨some [104, 105], none, List.replicate 32 1⟩ :=
  decryptMessage_encryptMessage (List.replicate 32 0) (List.replicate 24 7)
    ⟨some [104, 105], none, List.replicate 32 1⟩
    (by simp) (by simp) (by decide) (by decide)

/-! ### Chain-key derivation (`compareKeys` / `deriveChainKeys` in `crypto.ts`) -/

/-- `compareKeys(a, b)` from `crypto.ts`: byte-for-byte lexicographic
comparison, iterating over the positions of `a` (a position where `b` has
ended compares as neither smaller nor larger, as in JavaScript). -/
def compareKeys : List Nat → List Nat → Int
  | [], _ => 0
  | _ :: _, [] => 0
  | x :: xs, y :: ys =>
      if x < y then -1 else if y < x then 1 else compareKeys xs ys

structure ChainKeys where
  sendChain : List Nat
  recvChain : List Nat
deriving DecidableEq

/-- `deriveChainKeys(sharedSecret, ourPublicKey, theirPublicKey)` from
`crypto.ts`: chain 1 is `kdf(sharedSecret ‖ 0x01)`, chain 2 is
`kdf(sharedSecret ‖ 0x02)`; the lexicographically smaller key's owner sends
on chain 1. -/
def deriveChainKeys (sharedSecret ourPublicKey theirPublicKey : List Nat) : ChainKeys :=
  let weAreSmaller := compareKeys ourPublicKey theirPublicKey < 0
  let chain1 := kdf (sharedSecret ++ [1])
  let chain2 := kdf (sharedSecret ++ [2])
  { sendChain := if weAreSmaller then chain1 else chain2
    recvChain := if weAreSmaller then chain2 else chain1 }

theorem compareKeys_antisymm :
    ∀ a b : List Nat, a.length = b.length → compareKeys b a = -compareKeys a b := by
  intro a
  induction a with
  | nil =>
      intro b hb
      cases b with
      | nil => simp [compareKeys]
      | cons y ys => simp at hb
  | cons x xs ih =>
      intro b hb
      cases b with
      | nil => simp at hb
      | cons y ys =>
          simp only [List.length_cons, Nat.add_right_cancel_iff] at hb
          by_cases hxy : x < y
          · simp [compareKeys, hxy, Nat.lt_asymm hxy]
          · by_cases hyx : y < x
            · simp [compareKeys, hxy, hyx]
            · simp [compareKeys, hxy, hyx, ih ys hb]

theorem compareKeys_ne_zero :
    ∀ a b : List Nat, a.length = b.length → a ≠ b → compareKeys a b ≠ 0 := by
  intro a
  induction a with
  | nil =>
      intro b hb hne
      cases b with
      | nil => exact absurd rfl hne
      | cons y ys => simp at hb
  | cons x xs ih =>
      intro b hb hne
      cases b with
      | nil => simp at hb
      | cons y ys =>
          simp only [List.length_cons, Nat.add_right_cancel_iff] at hb
          by_cases hxy : x < y
          · simp [compareKeys, hxy]
          · by_cases hyx : y < x
            · simp [compareKeys, hxy, hyx]
            · have hxeq : x = y := by omega
              have htail : xs ≠ ys := by
                intro hcon
                exact hne (by rw [hxeq, hcon])
              simp [compareKeys, hxy, hyx, ih ys hb htail]

/-- C2: both peers derive complementary chains from the same shared secret,
and the lexicographically smaller public key's owner uses
`kdf(sharedSecret ‖ 0x01)` (the hash truncated to 32 bytes) as send chain
while the other uses it as receive chain. -/
theorem deriveChainKeys_complementary (sharedSecret a b : List Nat)
    (ha : a.length = 32) (hb : b.length = 32) (hne : a ≠ b) :
    (deriveChainKeys sharedSecret a b).sendChain = (deriveChainKeys sharedSecret b a).recvChain ∧
    (deriveChainKeys sharedSecret a b).recvChain = (deriveChainKeys sharedSecret b a).sendChain ∧
    (compareKeys a b < 0 ∨ compareKeys b a < 0) ∧
    (compareKeys a b < 0 →
      (deriveChainKeys sharedSecret a b).sendChain = kdf (sharedSecret ++ [1]) ∧
      (deriveChainKeys sharedSecret b a).recvChain = kdf (sharedSecret ++ [1])) ∧
    (compareKeys b a < 0 →
      (deriveChainKeys sharedSecret b a).sendChain = kdf (sharedSecret ++ [1]) ∧
      (deriveChainKeys sharedSecret a b).recvChain = kdf (sharedSecret ++ [1])) ∧
    kdf (sharedSecret ++ [1]) = (naclHash (sharedSecret ++ [1])).take 32 := by
  have hlen : a.length = b.length := by rw [ha, hb]
  have hanti := compareKeys_antisymm a b hlen
  have hnz := compareKeys_ne_zero a b hlen hne
  by_cases hlt : compareKeys a b < 0
  · have hge : ¬ compareKeys b a < 0 := by omega
    refine ⟨?_, ?_, Or.inl hlt, ?_, ?_, rfl⟩ <;>
      simp [deriveChainKeys, hlt, hge]
  · have hgt : compareKeys b a < 0 := by omega
    refine ⟨?_, ?_, Or.inr hgt, ?_, ?_, rfl⟩ <;>
      simp [deriveChainKeys, hlt, hgt]

/-- Witness for C2 at two concrete distinct 32-byte public keys. -/
theorem deriveChainKeys_complementary_witness :
    (deriveChainKeys [9] (List.replicate 32 0) (List.replicate 31 0 ++ [1])).sendChain =
      (deriveChainKeys [9] (List.replicate 31 0 ++ [1]) (List.replicate 32 0)).recvChain :=
  (deriveChainKeys_complementary [9] (List.replicate 32 0) (List.replicate 31 0 ++ [1])
    (by decide) (by decide) (by decide)).1

/-! ### `computeSharedSecret` (IdentityExchange) -/

/-- Typed failure of `computeSharedSecret`: models the exception tweetnacl
throws from `nacl.box.before` when a key does not have the expected
32-byte length (every 32-byte string is a valid Curve25519 input). -/
inductive KeyError where
  | invalidKey
deriving DecidableEq

/-- `computeSharedSecret(ourSecretKey, theirPublicKey)` from `crypto.ts`:
`nacl.box.before(theirPublicKey, ourSecretKey)` with tweetnacl's length
checks made explicit. -/
def computeSharedSecret (ourSecretKey theirPublicKey : List Nat) :
    Except KeyError (List Nat) :=
  if theirPublicKey.length = 32 then
    if ourSecretKey.length = 32 then .ok (dhOutput theirPublicKey ourSecretKey)
    else .error .invalidKey
  else .error .invalidKey

/-- C7: with a 32-byte secret key, `computeSharedSecret` returns the raw
(pre-chain-KDF) 32-byte Diffie-Hellman output on a public key of the
expected 32-byte length, and fails with the typed key error otherwise. -/
theorem computeSharedSecret_contract (ourSecretKey theirPublicKey : List Nat)
    (hsk : ourSecretKey.length = 32) :
    (theirPublicKey.length = 32 →
      computeSharedSecret ourSecretKey theirPublicKey =
        .ok (dhOutput theirPublicKey ourSecretKey) ∧
      (dhOutput theirPublicKey ourSecretKey).length = 32) ∧
    (theirPublicKey.length ≠ 32 →
      computeSharedSecret ourSecretKey theirPublicKey = .error .invalidKey) := by
  constructor
  · intro hpk
    exact ⟨by simp [computeSharedSecret, hpk, hsk], dhOutput_length _ _⟩
  · intro hpk
    simp [computeSharedSecret, hpk]

/-- Witness for C7 at a concrete 32-byte secret key and a short public key. -/
theorem computeSharedSecret_contract_witness :
    computeSharedSecret (List.replicate 32 3) [1, 2] = .error .invalidKey :=
  (computeSharedSecret_contract (List.replicate 32 3) [1, 2] (by decide)).2 (by decide)

/-! ### The symmetric and DH ratchet steps (`crypto.ts`) -/

structure RatchetStepResult where
  nextChainKey : List Nat
  messageKey : List Nat
deriving DecidableEq

/-- `ratchetStep(chainKey)` from `crypto.ts`: next chain key is
`kdf(chainKey ‖ 0x01)`, message key is `kdf(chainKey ‖ 0x02)`. -/
def ratchetStep (chainKey : List Nat) : RatchetStepResult :=
  { nextChainKey := kdf (chainKey ++ [1])
    messageKey := kdf (chainKey ++ [2]) }

/-- `dhRatchet(chainKey, ourSecretKey, theirPublicKey)` from `crypto.ts`:
`kdf(chainKey ‖ DH(ourSecretKey, theirPublicKey))`. -/
def dhRatchet (chainKey ourSecretKey theirPublicKey : List Nat) : List Nat :=
  kdf (chainKey ++ dhOutput theirPublicKey ourSecretKey)

/-! ### The ratchet session state and the `encrypt` / `decrypt` operations
of `App.vue` -/

structure KeyPair where
  publicKey : List Nat
  secretKey : List Nat
deriving DecidableEq

/-- The mutable ratchet state of `App.vue` (the reactive refs mutated by
`encrypt` and `decrypt`). -/
structure RatchetState where
  sendChain : List Nat
  recvChain : List Nat
  ourRatchetKeyPair : KeyPair
  peerRatchetPublic : List Nat
  sendMessageCount : Nat
  recvMessageCount : Nat
deriving DecidableEq

/-- Result of one `decrypt()` call in `App.vue`: a decrypted payload, the
typed in-band failure shown when `decryptMessage` returns `null`, or a
JavaScript exception escaping `decrypt()`. -/
inductive DecryptOutcome where
  | ok (p : MessagePayload)
  | typedFailure
  | exception
deriving DecidableEq

/-- `decrypt()` from `App.vue` as a state transition: symmetric-ratchet the
receive chain to a candidate message key, attempt `decryptMessage`, and
only on success commit the receive-chain advance, the peer ratchet key
update, and the receive counter. -/
def decryptStep (st : RatchetState) (input : List Nat) : DecryptOutcome × RatchetState :=
  let r := ratchetStep st.recvChain
  match decryptMessage r.messageKey input with
  | .error .authFailure => (.typedFailure, st)
  | .error .exception => (.exception, st)
  | .ok payload =>
      match decodeBase64 payload.ratchetKey with
      | none => (.exception, st)
      | some peerNewRatchetPub =>
          (.ok payload,
            { st with
                recvChain := dhRatchet r.nextChainKey st.ourRatchetKeyPair.secretKey
                  peerNewRatchetPub
                peerRatchetPublic := peerNewRatchetPub
                recvMessageCount := st.recvMessageCount + 1 })

/-- Receive chain used in the C3 counterexample. -/
def cexRecvChain : List Nat := List.replicate 32 0

/-- Session state used in the C3 counterexample. -/
def cexState : RatchetState :=
  { sendChain := []
    recvChain := cexRecvChain
    ourRatchetKeyPair := ⟨[], []⟩
    peerRatchetPublic := []
    sendMessageCount := 0
    recvMessageCount := 0 }

/-- C3 counterexample input: a well-formed ciphertext under the correct
candidate message key whose decrypted bytes `[2]` are not a structurally
valid payload. -/
def cexInput : List Nat :=
  encodeBase64 (List.replicate 24 0 ++
    secretbox [2] (List.replicate 24 0) (ratchetStep cexRecvChain).messageKey)

set_option maxRecDepth 10000 in
/-- C3 is false as stated: a decrypt attempt whose authenticated decryption
succeeds but whose decrypted bytes are not a structurally valid payload
escapes `decrypt()` as an exception (`JSON.parse` throws), not as a typed
outcome. -/
theorem decryptStep_malformed_payload_throws :
    (decryptStep cexState cexInput).1 = DecryptOutcome.exception := by decide

/-- C3 amended: any decrypt attempt that does not succeed — whether the
typed AEAD-failure outcome or an escaping exception — leaves the session
state (in particular `recvChain`, `peerRatchetPublic`, `recvMessageCount`)
exactly unchanged, and an AEAD authentication failure is reported as the
typed outcome. -/
theorem decryptStep_atomic (st : RatchetState) (input : List Nat)
    (h : (decryptStep st input).1 = DecryptOutcome.typedFailure ∨
         (decryptStep st input).1 = DecryptOutcome.exception) :
    (decryptStep st input).2 = st ∧
    (decryptMessage (ratchetStep st.recvChain).messageKey input =
        Except.error DecFailure.authFailure →
      (decryptStep st input).1 = DecryptOutcome.typedFailure) := by
  constructor
  · unfold decryptStep
    unfold decryptStep at h
    rcases hdm : decryptMessage (ratchetStep st.recvChain).messageKey input with e | p
    · cases e <;> simp [hdm]
    · rcases hdb : decodeBase64 p.ratchetKey with _ | pub
      · simp [hdm, hdb]
      · simp only [hdm, hdb] at h
        rcases h with h | h <;> simp at h
  · intro hdm
    unfold decryptStep
    simp [hdm]

/-- Witness for C3's amended theorem at a concrete state and input. -/
theorem decryptStep_atomic_witness :
    (decryptStep cexState []).2 = cexState :=
  (decryptStep_atomic cexState [] (Or.inr (by decide))).1

/-- Result of one `encrypt()` call in `App.vue`: either the message was
sent (or kept for manual copy) with the commit retained, or the transport
failed and the ratchet was rolled back. -/
inductive SendOutcome where
  | sent (encrypted : List Nat)
  | rolledBack
deriving DecidableEq

/-- `encrypt()` from `App.vue` as a state transition.  The fresh ephemeral
key pair and the fresh nonce are passed explicitly.  The chain advance,
ephemeral-key rotation and counter increment are committed unconditionally
before the transport attempt; a failed transport attempt (when a database
is configured) restores the three mutated fields from the pre-send
snapshot. -/
def encryptStep (st : RatchetState) (newKP : KeyPair) (nonce : List Nat)
    (text : Option (List Nat)) (atts : Option (List Attachment))
    (dbConfigured transportOk : Bool) : SendOutcome × RatchetState :=
  let prevSendChain := st.sendChain
  let prevOurRatchetKeyPair := st.ourRatchetKeyPair
  let prevSendMessageCount := st.sendMessageCount
  let r := ratchetStep st.sendChain
  let payload : MessagePayload := ⟨text, atts, encodeBase64 newKP.publicKey⟩
  let encrypted := encryptMessage nonce r.messageKey payload
  let committed : RatchetState :=
    { st with
        sendChain := dhRatchet r.nextChainKey newKP.secretKey st.peerRatchetPublic
        ourRatchetKeyPair := newKP
        sendMessageCount := st.sendMessageCount + 1 }
  if dbConfigured && !transportOk then
    (.rolledBack,
      { committed with
          sendChain := prevSendChain
          ourRatchetKeyPair := prevOurRatchetKeyPair
          sendMessageCount := prevSendMessageCount })
  else (.sent encrypted, committed)

/-- C4: when the transport attempt of a send fails after the chain advance
and key rotation were committed, the engine ends in exactly the pre-send
state — `sendChain`, `ourRatchetKeyPair` and `sendMessageCount` are all
restored, with no partial-rollback state. -/
theorem encryptStep_rollback (st : RatchetState) (newKP : KeyPair) (nonce : List Nat)
    (text : Option (List Nat)) (atts : Option (List Attachment))
    (hdb : dbConfigured = true) (htr : transportOk = false) :
    (encryptStep st newKP nonce text atts dbConfigured transportOk).2 = st ∧
    (encryptStep st newKP nonce text atts dbConfigured transportOk).1 = SendOutcome.rolledBack := by
  subst hdb htr
  cases st
  simp [encryptStep]

/-- Witness for C4 at a concrete state. -/
theorem encryptStep_rollback_witness :
    (encryptStep cexState ⟨[5], [6]⟩ (List.replicate 24 0) none none true false).2 = cexState :=
  (encryptStep_rollback cexState ⟨[5], [6]⟩ (List.replicate 24 0) none none rfl rfl).1

/-! ### The chunked transport layer (`useSupabase` composable) -/

def CHUNK_SIZE : Nat := 750000

def CHUNK_TIMEOUT : Nat := 5 * 60 * 1000

def REALTIME_BACKUP_INTERVAL : Nat := 5 * 60 * 1000

/-- `DbMessageEnvelope` from `types/db.ts`: `{s, d}`. -/
structure DbMessageEnvelope where
  s : List Nat
  d : List Nat
deriving DecidableEq

/-- `DbChunkEnvelope` from `types/db.ts`: `{s, t: 'chunk', mid, seq, total, d}`. -/
structure DbChunkEnvelope where
  s : List Nat
  mid : List Nat
  seq : Nat
  total : Nat
  d : List Nat
deriving DecidableEq

/-- One entry of the chunk-reassembly buffer:
`{ total, receivedAt, chunks: Map<seq, data>, pks }`. -/
structure BufEntry where
  total : Nat
  receivedAt : Nat
  chunks : List (Nat × List Nat)
  pks : List Nat
deriving DecidableEq

/-- The chunk buffer: `Map<mid, BufEntry>` in JavaScript insertion order. -/
abbrev Buffer := List (List Nat × BufEntry)

/-- `Map.get` on the per-entry `chunks` map. -/
def mapGet : List (Nat × List Nat) → Nat → Option (List Nat)
  | [], _ => none
  | e :: m, k => if e.1 = k then some e.2 else mapGet m k

/-- `Map.set` on the per-entry `chunks` map: update in place, else append. -/
def mapSet : List (Nat × List Nat) → Nat → List Nat → List (Nat × List Nat)
  | [], k, v => [(k, v)]
  | e :: m, k, v => if e.1 = k then (k, v) :: m else e :: mapSet m k v

/-- `Map.get` on the chunk buffer. -/
def bufGet : Buffer → List Nat → Option BufEntry
  | [], _ => none
  | e :: m, k => if e.1 = k then some e.2 else bufGet m k

/-- `Map.set` on the chunk buffer. -/
def bufSet : Buffer → List Nat → BufEntry → Buffer
  | [], k, v => [(k, v)]
  | e :: m, k, v => if e.1 = k then (k, v) :: m else e :: bufSet m k v

/-- `Map.delete` on the chunk buffer. -/
def bufDel : Buffer → List Nat → Buffer
  | [], _ => []
  | e :: m, k => if e.1 = k then bufDel m k else e :: bufDel m k

/-- The substring carried by chunk `seq`:
`encryptedBase64.slice(seq * CHUNK_SIZE, (seq + 1) * CHUNK_SIZE)`. -/
def chunkData (c : List Nat) (seq : Nat) : List Nat :=
  (c.drop (seq * CHUNK_SIZE)).take CHUNK_SIZE

/-- The chunk envelopes built by `sendChunked` (the random `mid` is passed
explicitly): `total = ceil(len / CHUNK_SIZE)` envelopes with
`seq = 0 .. total-1`. -/
def sendChunked (fp mid c : List Nat) : List DbChunkEnvelope :=
  let totalChunks := (c.length + CHUNK_SIZE - 1) / CHUNK_SIZE
  (List.range totalChunks).map (fun seq => ⟨fp, mid, seq, totalChunks, chunkData c seq⟩)

/-- What `sendMessage` emits: one direct envelope, or the chunk set. -/
inductive OutgoingMessage where
  | single (env : DbMessageEnvelope)
  | chunked (envs : List DbChunkEnvelope)
deriving DecidableEq

/-- `sendMessage(encryptedBase64)` from the composable: a single direct
envelope when the ciphertext fits in `CHUNK_SIZE`, otherwise the chunk
set from `sendChunked`. -/
def sendMessage (fp mid c : List Nat) : OutgoingMessage :=
  if c.length ≤ CHUNK_SIZE then .single ⟨fp, c⟩ else .chunked (sendChunked fp mid c)

/-- A row's payload as it looks after `JSON.parse`: either a direct
envelope or a chunk envelope (discriminated by `t === 'chunk'`). -/
inductive WirePayload where
  | direct (s d : List Nat)
  | chunk (env : DbChunkEnvelope)
deriving DecidableEq

/-- Sender fingerprint (`parsed.s`) of a parsed row payload. -/
def wireSender : WirePayload → List Nat
  | .direct s _ => s
  | .chunk env => env.s

/-- Result of `processIncomingRow`: skipped, a direct message row to
deliver, or a completed reassembled ciphertext with its chunk row keys. -/
inductive ProcessResult where
  | skip
  | message (pk : Nat) (s d : List Nat)
  | assembled (data : List Nat) (pks : List Nat)
deriving DecidableEq

/-- `processIncomingRow(rec)` from the composable, as a function of the
receiver fingerprint, the chunk buffer, the current time, and the row's
primary key and parsed payload.  Chunk case: look up or create the buffer
entry (the first chunk fixes `total`), record `chunks[seq] = d`
(last-write-wins), append the row key, refresh `receivedAt`, and complete
exactly when the number of distinct sequences equals the entry's `total`. -/
def processIncomingRow (fp : List Nat) (buffer : Buffer) (now : Nat) (pk : Nat)
    (w : WirePayload) : Buffer × ProcessResult :=
  if wireSender w = fp then (buffer, .skip)
  else
    match w with
    | .chunk env =>
        let buf0 := match bufGet buffer env.mid with
          | some b => b
          | none => ⟨env.total, now, [], []⟩
        let buf1 : BufEntry :=
          { buf0 with
              chunks := mapSet buf0.chunks env.seq env.d
              pks := buf0.pks ++ [pk]
              receivedAt := now }
        if buf1.chunks.length = buf1.total then
          let assembled :=
            (List.range buf1.total).foldl (fun acc i => acc ++ (mapGet buf1.chunks i).getD []) []
          (bufDel buffer env.mid, .assembled assembled buf1.pks)
        else
          (bufSet buffer env.mid buf1, .skip)
    | .direct s d =>
        if s ≠ [] ∧ d ≠ [] then (buffer, .message pk s d) else (buffer, .skip)

/-- `cleanupStaleChunks()` from the composable: remove every buffer entry
with `now - receivedAt > CHUNK_TIMEOUT` and delete its accumulated chunk
rows; the deleted row keys are returned in iteration order. -/
def cleanupStaleChunks (now : Nat) (buffer : Buffer) : Buffer × List Nat :=
  (buffer.filter (fun e => ¬ CHUNK_TIMEOUT < now - e.2.receivedAt),
   ((buffer.filter (fun e => CHUNK_TIMEOUT < now - e.2.receivedAt)).map (fun e => e.2.pks)).flatten)

/-- Fold of `processIncomingRow` over a list of rows (the body of the
`pollOnce` loop and, for a single row, of the Realtime insert handler),
collecting the per-row results. -/
def processRows (fp : List Nat) (buffer : Buffer) (now : Nat) :
    List (Nat × WirePayload) → Buffer × List ProcessResult
  | [] => (buffer, [])
  | (pk, w) :: rest =>
      let p := processIncomingRow fp buffer now pk w
      let q := processRows fp p.1 now rest
      (q.1, p.2 :: q.2)

/-- Model of `JSON.stringify` on a direct envelope (injective encoding). -/
def encodeEnvelope (e : DbMessageEnvelope) : List Nat :=
  encStr e.s ++ encStr e.d

/-- A row handed to the message callback: `{pk, data}`. -/
structure DeliveredRow where
  pk : Nat
  data : List Nat
deriving DecidableEq

/-- The rows handed to `onMessages`: a direct row is forwarded as is; a
completed chunked message becomes a synthetic direct envelope with an
empty sender fingerprint and the first recorded chunk row key. -/
def syntheticRows : List ProcessResult → List DeliveredRow
  | [] => []
  | .skip :: rs => syntheticRows rs
  | .message pk s d :: rs => ⟨pk, encodeEnvelope ⟨s, d⟩⟩ :: syntheticRows rs
  | .assembled data pks :: rs => ⟨pks.headD 0, encodeEnvelope ⟨[], data⟩⟩ :: syntheticRows rs

/-- The chunk row keys deleted from the store on completion. -/
def chunkDeletions : List ProcessResult → List Nat
  | [] => []
  | .assembled _ pks :: rs => pks ++ chunkDeletions rs
  | _ :: rs => chunkDeletions rs

/-- The row-consumption pipeline shared by a `pollOnce` tick (all current
rows) and a Realtime insert event (a single row): process each row, hand
the resulting direct and synthetic rows to the message callback, and
issue deletions for consumed chunk rows. -/
def pollRows (fp : List Nat) (buffer : Buffer) (now : Nat)
    (rows : List (Nat × WirePayload)) : Buffer × List DeliveredRow × List Nat :=
  let p := processRows fp buffer now rows
  (p.1, syntheticRows p.2, chunkDeletions p.2)

/-! #### Map and buffer lemmas -/

theorem mapGet_mapSet_self (m : List (Nat × List Nat)) (k : Nat) (v : List Nat) :
    mapGet (mapSet m k v) k = some v := by
  induction m with
  | nil => simp [mapGet, mapSet]
  | cons e m ih =>
      by_cases h : e.1 = k
      · simp [mapGet, mapSet, h]
      · simp [mapGet, mapSet, h, ih]

theorem mapGet_mapSet_ne (m : List (Nat × List Nat)) (k k' : Nat) (v : List Nat)
    (h : k' ≠ k) : mapGet (mapSet m k v) k' = mapGet m k' := by
  have hk : ¬ k = k' := Ne.symm h
  induction m with
  | nil => simp [mapGet, mapSet, hk]
  | cons e m ih =>
      by_cases he : e.1 = k
      · simp [mapGet, mapSet, he, hk]
      · simp [mapGet, mapSet, he, ih]

theorem mapGet_isSome_iff (m : List (Nat × List Nat)) (k : Nat) :
    (mapGet m k).isSome ↔ k ∈ m.map Prod.fst := by
  induction m with
  | nil => simp [mapGet]
  | cons e m ih =>
      by_cases h : e.1 = k
      · simp [mapGet, h]
      · simp only [mapGet, if_neg h, List.map_cons, List.mem_cons, ih]
        constructor
        · exact Or.inr
        · rintro (hk | hk)
          · exact absurd hk.symm h
          · exact hk

theorem mapGet_eq_none_iff (m : List (Nat × List Nat)) (k : Nat) :
    mapGet m k = none ↔ k ∉ m.map Prod.fst := by
  rw [← mapGet_isSome_iff, Option.isSome_iff_ne_none]
  simp

theorem mapSet_fst_of_mem (m : List (Nat × List Nat)) (k : Nat) (v : List Nat)
    (h : k ∈ m.map Prod.fst) : (mapSet m k v).map Prod.fst = m.map Prod.fst := by
  induction m with
  | nil => simp at h
  | cons e m ih =>
      by_cases he : e.1 = k
      · simp [mapSet, he]
      · simp only [List.map_cons, List.mem_cons] at h
        rcases h with h | h
        · exact absurd h.symm he
        · simp [mapSet, he, ih h]

theorem mapSet_fst_of_not_mem (m : List (Nat × List Nat)) (k : Nat) (v : List Nat)
    (h : k ∉ m.map Prod.fst) : (mapSet m k v).map Prod.fst = m.map Prod.fst ++ [k] := by
  induction m with
  | nil => simp [mapSet]
  | cons e m ih =>
      simp only [List.map_cons, List.mem_cons] at h
      push_neg at h
      have he : ¬ e.1 = k := fun hc => h.1 hc.symm
      simp [mapSet, he, ih h.2]

theorem mapGet_mem_values (m : List (Nat × List Nat)) (k : Nat)
    (h : k ∈ m.map Prod.fst) : ∃ v, mapGet m k = some v := by
  have := (mapGet_isSome_iff m k).mpr h
  exact Option.isSome_iff_exists.mp this

theorem bufGet_bufSet_self (b : Buffer) (k : List Nat) (v : BufEntry) :
    bufGet (bufSet b k v) k = some v := by
  induction b with
  | nil => simp [bufGet, bufSet]
  | cons e b ih =>
      by_cases h : e.1 = k
      · simp [bufGet, bufSet, h]
      · simp [bufGet, bufSet, h, ih]

theorem bufGet_bufDel_self (b : Buffer) (k : List Nat) :
    bufGet (bufDel b k) k = none := by
  induction b with
  | nil => simp [bufGet, bufDel]
  | cons e b ih =>
      by_cases h : e.1 = k
      · simp [bufDel, h, ih]
      · simp [bufGet, bufDel, h, ih]

/-! #### Split lemmas -/

theorem sendChunked_length (fp mid c : List Nat) :
    (sendChunked fp mid c).length = (c.length + CHUNK_SIZE - 1) / CHUNK_SIZE := by
  simp [sendChunked]

theorem sendChunked_seqs (fp mid c : List Nat) :
    (sendChunked fp mid c).map DbChunkEnvelope.seq =
      List.range ((c.length + CHUNK_SIZE - 1) / CHUNK_SIZE) := by
  simp only [sendChunked, List.map_map]
  exact List.map_id _

theorem mem_sendChunked {fp mid c : List Nat} {e : DbChunkEnvelope} :
    e ∈ sendChunked fp mid c ↔
      ∃ seq, seq < (c.length + CHUNK_SIZE - 1) / CHUNK_SIZE ∧
        e = ⟨fp, mid, seq, (c.length + CHUNK_SIZE - 1) / CHUNK_SIZE, chunkData c seq⟩ := by
  simp only [sendChunked, List.mem_map, List.mem_range]
  constructor
  · rintro ⟨seq, hseq, rfl⟩; exact ⟨seq, hseq, rfl⟩
  · rintro ⟨seq, hseq, rfl⟩; exact ⟨seq, hseq, rfl⟩

theorem flatten_chunkData_take (c : List Nat) :
    ∀ t : Nat, ((List.range t).map (chunkData c)).flatten = c.take (t * CHUNK_SIZE)
  | 0 => by simp
  | t + 1 => by
      rw [List.range_succ, List.map_append, List.flatten_append,
        flatten_chunkData_take c t]
      simp only [List.map_cons, List.map_nil, List.flatten_cons, List.flatten_nil,
        List.append_nil, chunkData]
      rw [← List.take_add]
      have hmul : t * CHUNK_SIZE + CHUNK_SIZE = (t + 1) * CHUNK_SIZE := by ring
      rw [hmul]

theorem flatten_chunkData (c : List Nat) (t : Nat) (h : c.length ≤ t * CHUNK_SIZE) :
    ((List.range t).map (chunkData c)).flatten = c := by
  rw [flatten_chunkData_take, List.take_of_length_le h]

theorem ceil_mul_ge (len : Nat) :
    len ≤ (len + CHUNK_SIZE - 1) / CHUNK_SIZE * CHUNK_SIZE := by
  simp only [CHUNK_SIZE]
  omega

theorem two_le_total (len : Nat) (h : CHUNK_SIZE < len) :
    2 ≤ (len + CHUNK_SIZE - 1) / CHUNK_SIZE := by
  simp only [CHUNK_SIZE] at h ⊢
  omega

/-- One chunk ingestion against a buffer already holding an entry for the
chunk's `mid`: the stored `total` (fixed by the first chunk) decides
completion; the row key is appended and `receivedAt` refreshed. -/
theorem processIncomingRow_chunk_existing (rfp : List Nat) (buffer : Buffer) (now pk : Nat)
    (env : DbChunkEnvelope) (entry : BufEntry) (hs : env.s ≠ rfp)
    (hget : bufGet buffer env.mid = some entry) :
    processIncomingRow rfp buffer now pk (.chunk env) =
      if (mapSet entry.chunks env.seq env.d).length = entry.total
      then (bufDel buffer env.mid,
            .assembled ((List.range entry.total).foldl
              (fun acc i => acc ++ (mapGet (mapSet entry.chunks env.seq env.d) i).getD []) [])
              (entry.pks ++ [pk]))
      else (bufSet buffer env.mid
              { entry with
                  chunks := mapSet entry.chunks env.seq env.d
                  pks := entry.pks ++ [pk]
                  receivedAt := now }, .skip) := by
  simp only [processIncomingRow, wireSender, if_neg hs, hget]

/-- One chunk ingestion with no entry yet for the chunk's `mid`: the entry
is created with the chunk's `total`; when that `total` is not 1 the result
is pending. -/
theorem processIncomingRow_chunk_fresh (rfp : List Nat) (buffer : Buffer) (now pk : Nat)
    (env : DbChunkEnvelope) (hs : env.s ≠ rfp) (hget : bufGet buffer env.mid = none)
    (hnc : 1 ≠ env.total) :
    processIncomingRow rfp buffer now pk (.chunk env) =
      (bufSet buffer env.mid ⟨env.total, now, [(env.seq, env.d)], [pk]⟩, .skip) := by
  simp only [processIncomingRow, wireSender, if_neg hs, hget, mapSet]
  rw [if_neg (by simpa using hnc)]
  simp

/-- Fold with list append, rewritten through `flatten`. -/
theorem foldl_append_getD (f : Nat → Option (List Nat)) :
    ∀ (l : List Nat) (acc : List Nat),
      l.foldl (fun acc i => acc ++ (f i).getD []) acc =
        acc ++ (l.map (fun i => (f i).getD [])).flatten
  | [], acc => by simp
  | i :: l, acc => by
      simp only [List.foldl_cons, List.map_cons, List.flatten_cons]
      rw [foldl_append_getD f l (acc ++ (f i).getD [])]
      simp [List.append_assoc]

/-- Unfolding of `processRows` over one row. -/
theorem processRows_cons (fp : List Nat) (buffer : Buffer) (now pk : Nat) (w : WirePayload)
    (rows : List (Nat × WirePayload)) :
    processRows fp buffer now ((pk, w) :: rows) =
      ((processRows fp (processIncomingRow fp buffer now pk w).1 now rows).1,
       (processIncomingRow fp buffer now pk w).2 ::
         (processRows fp (processIncomingRow fp buffer now pk w).1 now rows).2) := rfl

/-- Core reassembly run: starting from a buffer holding one partially
filled entry for `mid` consistent with the split of `c`, ingesting chunk
rows drawn from `sendChunked fp mid c` that cover all missing sequences,
where the final row carries a sequence not yet received and not duplicated
earlier, produces `skip` on every row but the last and completes on the
last row with the reassembled ciphertext `c`, emptying the buffer. -/
theorem processRows_chunks_run (c fp rfp mid : List Nat) (now : Nat) (hfp : fp ≠ rfp) :
    ∀ (xs : List (Nat × DbChunkEnvelope)) (entry : BufEntry) (hne : xs ≠ []),
      (∀ x ∈ xs, x.2 ∈ sendChunked fp mid c) →
      entry.total = (c.length + CHUNK_SIZE - 1) / CHUNK_SIZE →
      (∀ k ∈ entry.chunks.map Prod.fst, k < entry.total) →
      (entry.chunks.map Prod.fst).Nodup →
      (∀ k v, mapGet entry.chunks k = some v → v = chunkData c k) →
      (∀ i < entry.total, i ∈ entry.chunks.map Prod.fst ∨ i ∈ xs.map (fun x => x.2.seq)) →
      (xs.getLast hne).2.seq ∉ entry.chunks.map Prod.fst →
      (∀ x ∈ xs.dropLast, x.2.seq ≠ (xs.getLast hne).2.seq) →
      processRows rfp [(mid, entry)] now (xs.map (fun x => (x.1, WirePayload.chunk x.2))) =
        ([], List.replicate (xs.length - 1) ProcessResult.skip ++
          [ProcessResult.assembled c (entry.pks ++ xs.map Prod.fst)]) := by
  intro xs
  induction xs with
  | nil => intro entry hne; exact absurd rfl hne
  | cons x rest ih =>
      intro entry hne hxs htot hksub hknodup hvals hcover hlastfresh hlastonce
      obtain ⟨pk, env⟩ := x
      obtain ⟨s, hslt, hxe⟩ := mem_sendChunked.mp (hxs (pk, env) (by simp))
      simp only at hxe
      subst hxe
      have hmid : (DbChunkEnvelope.mk fp mid s ((c.length + CHUNK_SIZE - 1) / CHUNK_SIZE)
          (chunkData c s)).mid = mid := rfl
      have hget : bufGet [(mid, entry)] mid = some entry := by simp [bufGet]
      cases rest with
      | nil =>
          have hsnot : s ∉ entry.chunks.map Prod.fst := hlastfresh
          have hkeys' : (mapSet entry.chunks s (chunkData c s)).map Prod.fst =
              entry.chunks.map Prod.fst ++ [s] :=
            mapSet_fst_of_not_mem _ _ _ hsnot
          have hsubr : (entry.chunks.map Prod.fst ++ [s]) ⊆
              List.range ((c.length + CHUNK_SIZE - 1) / CHUNK_SIZE) := by
            intro k hk
            rcases List.mem_append.mp hk with hk | hk
            · exact List.mem_range.mpr (htot ▸ hksub k hk)
            · simp only [List.mem_singleton] at hk
              subst hk
              exact List.mem_range.mpr hslt
          have hnodup' : (entry.chunks.map Prod.fst ++ [s]).Nodup := by
            refine List.nodup_append.mpr ⟨hknodup, List.nodup_singleton s, ?_⟩
            intro a ha hb
            simp only [List.mem_singleton] at hb
            subst hb
            exact hsnot ha
          have hsupr : List.range ((c.length + CHUNK_SIZE - 1) / CHUNK_SIZE) ⊆
              entry.chunks.map Prod.fst ++ [s] := by
            intro i hi
            rcases hcover i (htot ▸ List.mem_range.mp hi) with hik | hix
            · exact List.mem_append.mpr (Or.inl hik)
            · simp only [List.map_cons, List.map_nil, List.mem_singleton] at hix
              refine List.mem_append.mpr (Or.inr ?_)
              simp [hix]
          have hperm : List.Perm (entry.chunks.map Prod.fst ++ [s])
              (List.range ((c.length + CHUNK_SIZE - 1) / CHUNK_SIZE)) :=
            (hnodup'.subperm hsubr).antisymm ((List.nodup_range _).subperm hsupr)
          have hlen' : (mapSet entry.chunks s (chunkData c s)).length = entry.total := by
            have h1 := hperm.length_eq
            simp only [List.length_range] at h1
            have h2 : ((mapSet entry.chunks s (chunkData c s)).map Prod.fst).length =
                (c.length + CHUNK_SIZE - 1) / CHUNK_SIZE := by
              rw [hkeys']
              exact h1
            rw [htot]
            simpa using h2
          have hvals' : ∀ i ∈ List.range ((c.length + CHUNK_SIZE - 1) / CHUNK_SIZE),
              (mapGet (mapSet entry.chunks s (chunkData c s)) i).getD [] = chunkData c i := by
            intro i hi
            by_cases his : i = s
            · subst his
              rw [mapGet_mapSet_self]
              rfl
            · rw [mapGet_mapSet_ne _ _ _ _ his]
              have hik : i ∈ entry.chunks.map Prod.fst := by
                rcases List.mem_append.mp (hsupr hi) with h | h
                · exact h
                · simp only [List.mem_singleton] at h
                  exact absurd h his
              obtain ⟨v, hv⟩ := mapGet_mem_values _ _ hik
              rw [hv, hvals i v hv]
              rfl
          have hassm : (List.range entry.total).foldl
              (fun acc i => acc ++ (mapGet (mapSet entry.chunks s (chunkData c s)) i).getD [])
              [] = c := by
            rw [htot, foldl_append_getD, List.nil_append, List.map_congr_left hvals']
            exact flatten_chunkData c _ (ceil_mul_ge c.length)
          have hstep := processIncomingRow_chunk_existing rfp [(mid, entry)] now pk
            ⟨fp, mid, s, (c.length + CHUNK_SIZE - 1) / CHUNK_SIZE, chunkData c s⟩ entry hfp hget
          rw [if_pos hlen'] at hstep
          simp only [List.map_cons, List.map_nil, processRows, hstep, hassm]
          simp [bufDel, processRows]
      | cons r rest' =>
          have hrne : r :: rest' ≠ [] := by simp
          have hlasteq :
              (((pk, (DbChunkEnvelope.mk fp mid s ((c.length + CHUNK_SIZE - 1) / CHUNK_SIZE)
                (chunkData c s))) :: r :: rest').getLast hne) = (r :: rest').getLast hrne :=
            List.getLast_cons hrne
          have hxmem : (pk, (DbChunkEnvelope.mk fp mid s ((c.length + CHUNK_SIZE - 1) / CHUNK_SIZE)
              (chunkData c s))) ∈
              (((pk, (DbChunkEnvelope.mk fp mid s ((c.length + CHUNK_SIZE - 1) / CHUNK_SIZE)
                (chunkData c s))) :: r :: rest').dropLast) := by
            rw [List.dropLast_cons₂]
            exact List.mem_cons_self _ _
          have hsne : s ≠ ((r :: rest').getLast hrne).2.seq := by
            have := hlastonce _ hxmem
            rwa [hlasteq] at this
          have hLlt : ((r :: rest').getLast hrne).2.seq < entry.total := by
            have hmem : (r :: rest').getLast hrne ∈
                ((pk, (DbChunkEnvelope.mk fp mid s ((c.length + CHUNK_SIZE - 1) / CHUNK_SIZE)
                  (chunkData c s))) :: r :: rest') := by
              exact List.mem_cons_of_mem _ (List.getLast_mem hrne)
            obtain ⟨t, htlt, hte⟩ := mem_sendChunked.mp (hxs _ hmem)
            rw [hte]
            exact htot ▸ htlt
          -- the new entry after ingesting this (pending) chunk
          by_cases hdup : s ∈ entry.chunks.map Prod.fst
          · -- duplicate sequence: keys unchanged
            have hkeys' : (mapSet entry.chunks s (chunkData c s)).map Prod.fst =
                entry.chunks.map Prod.fst := mapSet_fst_of_mem _ _ _ hdup
            have hnc : (mapSet entry.chunks s (chunkData c s)).length ≠ entry.total := by
              intro hc
              have hperm : List.Perm (entry.chunks.map Prod.fst) (List.range entry.total) := by
                refine (hknodup.subperm (fun k hk => List.mem_range.mpr (hksub k hk))).perm_of_length_le ?_
                have : (entry.chunks.map Prod.fst).length = entry.total := by
                  rw [← hkeys']
                  simpa using hc
                simp [this]
              have : ((r :: rest').getLast hrne).2.seq ∈ entry.chunks.map Prod.fst :=
                hperm.mem_iff.mpr (List.mem_range.mpr hLlt)
              rw [hlasteq] at hlastfresh
              exact hlastfresh this
            have hstep := processIncomingRow_chunk_existing rfp [(mid, entry)] now pk
              ⟨fp, mid, s, (c.length + CHUNK_SIZE - 1) / CHUNK_SIZE, chunkData c s⟩ entry hfp hget
            rw [if_neg hnc] at hstep
            have hbufset : bufSet [(mid, entry)] mid
                { entry with
                    chunks := mapSet entry.chunks s (chunkData c s)
                    pks := entry.pks ++ [pk]
                    receivedAt := now } =
                [(mid, { entry with
                    chunks := mapSet entry.chunks s (chunkData c s)
                    pks := entry.pks ++ [pk]
                    receivedAt := now })] := by simp [bufSet]
            have hih := ih { entry with
                chunks := mapSet entry.chunks s (chunkData c s)
                pks := entry.pks ++ [pk]
                receivedAt := now } hrne
              (fun y hy => hxs y (List.mem_cons_of_mem _ hy))
              htot
              (by intro k hk; rw [hkeys'] at hk; exact hksub k hk)
              (by rw [hkeys']; exact hknodup)
              (by
                intro k v hv
                by_cases hks : k = s
                · subst hks
                  rw [mapGet_mapSet_self] at hv
                  exact (Option.some.injEq _ _ ▸ hv).symm
                · rw [mapGet_mapSet_ne _ _ _ _ hks] at hv
                  exact hvals k v hv)
              (by
                intro i hilt
                rcases hcover i hilt with hik | hix
                · exact Or.inl (by rw [hkeys']; exact hik)
                · simp only [List.map_cons, List.mem_cons] at hix
                  rcases hix with hix | hix
                  · exact Or.inl (by rw [hkeys', hix]; exact hdup)
                  · exact Or.inr (by simpa using hix))
              (by rw [hkeys']; rw [hlasteq] at hlastfresh; exact hlastfresh)
              (by
                intro y hy
                refine hlastonce y ?_
                rw [List.dropLast_cons₂]
                exact List.mem_cons_of_mem _ hy)
            rw [List.map_cons, processRows_cons]
            simp only [hstep, hbufset]
            rw [hih]
            simp [List.replicate_succ, List.append_assoc]
          · -- fresh sequence, but not the last one: still not complete
            have hkeys' : (mapSet entry.chunks s (chunkData c s)).map Prod.fst =
                entry.chunks.map Prod.fst ++ [s] := mapSet_fst_of_not_mem _ _ _ hdup
            have hnodup' : (entry.chunks.map Prod.fst ++ [s]).Nodup := by
              refine List.nodup_append.mpr ⟨hknodup, List.nodup_singleton s, ?_⟩
              intro a ha hb
              simp only [List.mem_singleton] at hb
              subst hb
              exact hdup ha
            have hsubr : (entry.chunks.map Prod.fst ++ [s]) ⊆ List.range entry.total := by
              intro k hk
              rcases List.mem_append.mp hk with hk | hk
              · exact List.mem_range.mpr (hksub k hk)
              · simp only [List.mem_singleton] at hk
                subst hk
                exact List.mem_range.mpr (htot ▸ hslt)
            have hnc : (mapSet entry.chunks s (chunkData c s)).length ≠ entry.total := by
              intro hc
              have hperm : List.Perm (entry.chunks.map Prod.fst ++ [s]) (List.range entry.total) := by
                refine (hnodup'.subperm hsubr).perm_of_length_le ?_
                have : (entry.chunks.map Prod.fst ++ [s]).length = entry.total := by
                  rw [← hkeys']
                  simpa using hc
                simp [this]
              have hLmem : ((r :: rest').getLast hrne).2.seq ∈
                  entry.chunks.map Prod.fst ++ [s] :=
                hperm.mem_iff.mpr (List.mem_range.mpr hLlt)
              rcases List.mem_append.mp hLmem with h | h
              · rw [hlasteq] at hlastfresh
                exact hlastfresh h
              · simp only [List.mem_singleton] at h
                exact hsne h.symm
            have hstep := processIncomingRow_chunk_existing rfp [(mid, entry)] now pk
              ⟨fp, mid, s, (c.length + CHUNK_SIZE - 1) / CHUNK_SIZE, chunkData c s⟩ entry hfp hget
            rw [if_neg hnc] at hstep
            have hbufset : bufSet [(mid, entry)] mid
                { entry with
                    chunks := mapSet entry.chunks s (chunkData c s)
                    pks := entry.pks ++ [pk]
                    receivedAt := now } =
                [(mid, { entry with
                    chunks := mapSet entry.chunks s (chunkData c s)
                    pks := entry.pks ++ [pk]
                    receivedAt := now })] := by simp [bufSet]
            have hih := ih { entry with
                chunks := mapSet entry.chunks s (chunkData c s)
                pks := entry.pks ++ [pk]
                receivedAt := now } hrne
              (fun y hy => hxs y (List.mem_cons_of_mem _ hy))
              htot
              (by
                intro k hk
                rw [hkeys'] at hk
                rcases List.mem_append.mp hk with hk | hk
                · exact hksub k hk
                · simp only [List.mem_singleton] at hk
                  subst hk
                  exact htot ▸ hslt)
              (by rw [hkeys']; exact hnodup')
              (by
                intro k v hv
                by_cases hks : k = s
                · subst hks
                  rw [mapGet_mapSet_self] at hv
                  exact (Option.some.injEq _ _ ▸ hv).symm
                · rw [mapGet_mapSet_ne _ _ _ _ hks] at hv
                  exact hvals k v hv)
              (by
                intro i hilt
                rcases hcover i hilt with hik | hix
                · exact Or.inl (by rw [hkeys']; exact List.mem_append.mpr (Or.inl hik))
                · simp only [List.map_cons, List.mem_cons] at hix
                  rcases hix with hix | hix
                  · refine Or.inl ?_
                    rw [hkeys', hix]
                    refine List.mem_append.mpr (Or.inr ?_)
                    simp
                  · exact Or.inr (by simpa using hix))
              (by
                rw [hkeys']
                rw [hlasteq] at hlastfresh
                intro hmem
                rcases List.mem_append.mp hmem with h | h
                · exact hlastfresh h
                · simp only [List.mem_singleton] at h
                  exact hsne h.symm)
              (by
                intro y hy
                refine hlastonce y ?_
                rw [List.dropLast_cons₂]
                exact List.mem_cons_of_mem _ hy)
            rw [List.map_cons, processRows_cons]
            simp only [hstep, hbufset]
            rw [hih]
            simp [List.replicate_succ, List.append_assoc]

/-- The ingest half of the chunking round-trip, shared by the delivery
pipeline: ingesting, into an empty buffer, rows carrying all envelopes of
`sendChunked fp mid c` in any order (with duplicates of still-buffered
sequences allowed: the final row carries a fresh sequence) yields `skip`
for every row but the last and exactly one completed reassembly equal to
`c`, carrying the row keys in arrival order. -/
theorem processRows_empty_run (c fp rfp mid : List Nat) (now : Nat)
    (hcl : CHUNK_SIZE < c.length) (hfp : fp ≠ rfp) :
    ∀ (xs : List (Nat × DbChunkEnvelope)) (hne : xs ≠ []),
      (∀ x ∈ xs, x.2 ∈ sendChunked fp mid c) →
      (∀ e ∈ sendChunked fp mid c, e ∈ xs.map Prod.snd) →
      (∀ x ∈ xs.dropLast, x.2.seq ≠ (xs.getLast hne).2.seq) →
      processRows rfp [] now (xs.map (fun x => (x.1, WirePayload.chunk x.2))) =
        ([], List.replicate (xs.length - 1) ProcessResult.skip ++
          [ProcessResult.assembled c (xs.map Prod.fst)]) := by
  have htt : 2 ≤ (c.length + CHUNK_SIZE - 1) / CHUNK_SIZE := two_le_total c.length hcl
  intro xs hne hsub hsup honce
  cases xs with
  | nil => exact absurd rfl hne
  | cons x rest =>
      obtain ⟨pk, env⟩ := x
      obtain ⟨s, hslt, hxe⟩ := mem_sendChunked.mp (hsub (pk, env) (by simp))
      simp only at hxe
      subst hxe
      cases rest with
      | nil =>
          exfalso
          have h0 : (⟨fp, mid, 0, (c.length + CHUNK_SIZE - 1) / CHUNK_SIZE,
              chunkData c 0⟩ : DbChunkEnvelope) ∈ sendChunked fp mid c :=
            mem_sendChunked.mpr ⟨0, by omega, rfl⟩
          have h1 : (⟨fp, mid, 1, (c.length + CHUNK_SIZE - 1) / CHUNK_SIZE,
              chunkData c 1⟩ : DbChunkEnvelope) ∈ sendChunked fp mid c :=
            mem_sendChunked.mpr ⟨1, by omega, rfl⟩
          have h0' := hsup _ h0
          have h1' := hsup _ h1
          simp only [List.map_cons, List.map_nil, List.mem_singleton] at h0' h1'
          have : (0 : Nat) = 1 := by
            have e0 := congrArg DbChunkEnvelope.seq h0'
            have e1 := congrArg DbChunkEnvelope.seq h1'
            simp only at e0 e1
            omega
          exact absurd this (by omega)
      | cons r rest' =>
          have hrne : r :: rest' ≠ [] := by simp
          have henvs : (DbChunkEnvelope.mk fp mid s ((c.length + CHUNK_SIZE - 1) / CHUNK_SIZE)
              (chunkData c s)).s = fp := rfl
          have hfresh := processIncomingRow_chunk_fresh rfp [] now pk
            ⟨fp, mid, s, (c.length + CHUNK_SIZE - 1) / CHUNK_SIZE, chunkData c s⟩
            hfp rfl
            (by
              show (1 : Nat) ≠ (c.length + CHUNK_SIZE - 1) / CHUNK_SIZE
              omega)
          have hbufset : bufSet ([] : Buffer) mid
              ⟨(c.length + CHUNK_SIZE - 1) / CHUNK_SIZE, now, [(s, chunkData c s)], [pk]⟩ =
              [(mid, ⟨(c.length + CHUNK_SIZE - 1) / CHUNK_SIZE, now,
                [(s, chunkData c s)], [pk]⟩)] := by simp [bufSet]
          have hlasteq :
              (((pk, (DbChunkEnvelope.mk fp mid s ((c.length + CHUNK_SIZE - 1) / CHUNK_SIZE)
                (chunkData c s))) :: r :: rest').getLast hne) = (r :: rest').getLast hrne :=
            List.getLast_cons hrne
          have hxdrop : (pk, (DbChunkEnvelope.mk fp mid s
              ((c.length + CHUNK_SIZE - 1) / CHUNK_SIZE) (chunkData c s))) ∈
              (((pk, (DbChunkEnvelope.mk fp mid s ((c.length + CHUNK_SIZE - 1) / CHUNK_SIZE)
                (chunkData c s))) :: r :: rest').dropLast) := by
            rw [List.dropLast_cons₂]
            exact List.mem_cons_self _ _
          have hsne : s ≠ ((r :: rest').getLast hrne).2.seq := by
            have := honce _ hxdrop
            rwa [hlasteq] at this
          have hrun := processRows_chunks_run c fp rfp mid now hfp (r :: rest')
            ⟨(c.length + CHUNK_SIZE - 1) / CHUNK_SIZE, now, [(s, chunkData c s)], [pk]⟩
            hrne
            (fun y hy => hsub y (List.mem_cons_of_mem _ hy))
            rfl
            (by
              intro k hk
              simp only [List.map_cons, List.map_nil, List.mem_singleton] at hk
              subst hk
              exact hslt)
            (by simp)
            (by
              intro k v hv
              by_cases hks : s = k
              · subst hks
                simp [mapGet] at hv
                exact hv.symm
              · simp [mapGet, hks] at hv)
            (by
              intro i hilt
              have hi' : (⟨fp, mid, i, (c.length + CHUNK_SIZE - 1) / CHUNK_SIZE,
                  chunkData c i⟩ : DbChunkEnvelope) ∈ sendChunked fp mid c :=
                mem_sendChunked.mpr ⟨i, hilt, rfl⟩
              have hmem := hsup _ hi'
              simp only [List.map_cons, List.mem_cons] at hmem
              rcases hmem with hmem | hmem | hmem
              · have hseq := congrArg DbChunkEnvelope.seq hmem
                simp only at hseq
                refine Or.inl ?_
                simp [hseq]
              · have hseq := congrArg DbChunkEnvelope.seq hmem
                simp only at hseq
                refine Or.inr ?_
                simp only [List.map_cons, List.mem_cons]
                exact Or.inl hseq
              · refine Or.inr ?_
                rcases List.mem_map.mp hmem with ⟨y, hy, hye⟩
                simp only [List.map_cons, List.mem_cons]
                refine Or.inr (List.mem_map.mpr ⟨y, hy, ?_⟩)
                rw [hye])
            (by
              simp only [List.map_cons, List.map_nil, List.mem_singleton]
              exact fun hc => hsne hc.symm)
            (by
              intro y hy
              refine honce y ?_
              rw [List.dropLast_cons₂]
              exact List.mem_cons_of_mem _ hy)
          rw [List.map_cons, processRows_cons]
          simp only [hfresh, hbufset]
          rw [hrun]
          simp [List.replicate_succ, List.append_assoc]

/-- C5: for a ciphertext longer than `CHUNK_SIZE`, the split produces
`ceil(len / CHUNK_SIZE)` envelopes with sequences `0 .. total-1` carrying
disjoint order-preserving substrings whose concatenation is the original
string; ingesting all of them in any order — duplicates of sequences still
held in the buffer allowed, i.e. the final envelope carries a fresh
sequence — produces pending results followed by exactly one completed
reassembly equal to the original string; a ciphertext that fits in
`CHUNK_SIZE` is sent as a single direct envelope with no chunking. -/
theorem chunking_roundtrip (c fp rfp mid : List Nat) (now : Nat)
    (hcl : CHUNK_SIZE < c.length) (hfp : fp ≠ rfp) :
    (sendChunked fp mid c).length = (c.length + CHUNK_SIZE - 1) / CHUNK_SIZE ∧
    (sendChunked fp mid c).map DbChunkEnvelope.seq =
      List.range ((c.length + CHUNK_SIZE - 1) / CHUNK_SIZE) ∧
    ((sendChunked fp mid c).map DbChunkEnvelope.d).flatten = c ∧
    sendMessage fp mid c = .chunked (sendChunked fp mid c) ∧
    (∀ c' : List Nat, c'.length ≤ CHUNK_SIZE → sendMessage fp mid c' = .single ⟨fp, c'⟩) ∧
    (∀ (xs : List (Nat × DbChunkEnvelope)) (hne : xs ≠ []),
      (∀ x ∈ xs, x.2 ∈ sendChunked fp mid c) →
      (∀ e ∈ sendChunked fp mid c, e ∈ xs.map Prod.snd) →
      (∀ x ∈ xs.dropLast, x.2.seq ≠ (xs.getLast hne).2.seq) →
      processRows rfp [] now (xs.map (fun x => (x.1, WirePayload.chunk x.2))) =
        ([], List.replicate (xs.length - 1) ProcessResult.skip ++
          [ProcessResult.assembled c (xs.map Prod.fst)])) := by
  have htt : 2 ≤ (c.length + CHUNK_SIZE - 1) / CHUNK_SIZE := two_le_total c.length hcl
  refine ⟨sendChunked_length fp mid c, sendChunked_seqs fp mid c, ?_, ?_, ?_, ?_⟩
  · simp only [sendChunked, List.map_map]
    exact flatten_chunkData c _ (ceil_mul_ge c.length)
  · simp only [sendMessage]
    rw [if_neg (by omega)]
  · intro c' hc'
    simp [sendMessage, hc']
  · exact processRows_empty_run c fp rfp mid now hcl hfp

/-- Witness for C5, applying the round-trip theorem at a concrete oversized
ciphertext. -/
theorem chunking_roundtrip_witness :
    (sendChunked [1] [3] (List.replicate 750001 0)).length =
      ((List.replicate 750001 (0 : Nat)).length + CHUNK_SIZE - 1) / CHUNK_SIZE :=
  (chunking_roundtrip (List.replicate 750001 0) [1] [2] [3] 0
    (by rw [List.length_replicate]; decide) (by decide)).1

theorem syntheticRows_skips (n : Nat) (rs : List ProcessResult) :
    syntheticRows (List.replicate n ProcessResult.skip ++ rs) = syntheticRows rs := by
  induction n with
  | zero => simp
  | succ n ih => simpa [List.replicate_succ, syntheticRows] using ih

theorem chunkDeletions_skips (n : Nat) (rs : List ProcessResult) :
    chunkDeletions (List.replicate n ProcessResult.skip ++ rs) = chunkDeletions rs := by
  induction n with
  | zero => simp
  | succ n ih => simpa [List.replicate_succ, chunkDeletions] using ih

/-- C10: when a chunked message completes, the row pipeline (shared by the
poll loop and the Realtime insert handler) hands the message callback a
single synthetic direct envelope whose sender-fingerprint field is the
empty string and whose row key is the primary key of the first chunk row
recorded for that message id, and issues a deletion for every recorded
chunk row key (duplicates included). -/
theorem pollRows_synthetic_envelope (c fp rfp mid : List Nat) (now : Nat)
    (hcl : CHUNK_SIZE < c.length) (hfp : fp ≠ rfp)
    (xs : List (Nat × DbChunkEnvelope)) (hne : xs ≠ [])
    (hsub : ∀ x ∈ xs, x.2 ∈ sendChunked fp mid c)
    (hsup : ∀ e ∈ sendChunked fp mid c, e ∈ xs.map Prod.snd)
    (honce : ∀ x ∈ xs.dropLast, x.2.seq ≠ (xs.getLast hne).2.seq) :
    pollRows rfp [] now (xs.map (fun x => (x.1, WirePayload.chunk x.2))) =
      ([], [⟨(xs.map Prod.fst).headD 0, encodeEnvelope ⟨[], c⟩⟩], xs.map Prod.fst) := by
  have hrun := processRows_empty_run c fp rfp mid now hcl hfp xs hne hsub hsup honce
  simp only [pollRows, hrun, syntheticRows_skips, chunkDeletions_skips,
    syntheticRows, chunkDeletions]
  simp

/-- Concrete oversized ciphertext for the C10 witness. -/
def c10c : List Nat := List.replicate 750001 0

/-- Its chunk count. -/
def c10total : Nat := 2

/-- Chunk envelope `t` of the C10 witness ciphertext. -/
def c10e (t : Nat) : DbChunkEnvelope := ⟨[1], [3], t, c10total, chunkData c10c t⟩

/-- The witness ingestion order: both chunks, in sequence order. -/
def c10xs : List (Nat × DbChunkEnvelope) := [(10, c10e 0), (11, c10e 1)]

theorem c10len : c10c.length = 750001 := List.length_replicate 750001 0

theorem c10div : (c10c.length + CHUNK_SIZE - 1) / CHUNK_SIZE = c10total := by
  rw [c10len]
  decide

theorem c10e_spec (t : Nat) :
    c10e t = ⟨[1], [3], t, (c10c.length + CHUNK_SIZE - 1) / CHUNK_SIZE, chunkData c10c t⟩ := by
  rw [c10div]
  rfl

/-- Witness for C10 at the concrete two-chunk ingestion. -/
theorem pollRows_synthetic_envelope_witness :
    pollRows [2] [] 0 (c10xs.map (fun x => (x.1, WirePayload.chunk x.2))) =
      ([], [⟨(c10xs.map Prod.fst).headD 0, encodeEnvelope ⟨[], c10c⟩⟩], c10xs.map Prod.fst) :=
  pollRows_synthetic_envelope c10c [1] [2] [3] 0
    (by rw [c10len]; decide)
    (by decide)
    c10xs
    (by
      show ((10, c10e 0) :: [(11, c10e 1)]) ≠ []
      exact List.cons_ne_nil _ _)
    (by
      intro x hx
      simp only [c10xs, List.mem_cons, List.not_mem_nil, or_false] at hx
      rcases hx with rfl | rfl
      · exact mem_sendChunked.mpr ⟨0, by rw [c10div]; decide, c10e_spec 0⟩
      · exact mem_sendChunked.mpr ⟨1, by rw [c10div]; decide, c10e_spec 1⟩)
    (by
      intro e he
      rcases mem_sendChunked.mp he with ⟨t, hlt, rfl⟩
      rw [c10div] at hlt
      have hlt2 : t < 2 := hlt
      rw [← c10e_spec t]
      interval_cases t
      · simp only [c10xs, List.map_cons, List.map_nil]
        exact List.mem_cons_self _ _
      · simp only [c10xs, List.map_cons, List.map_nil]
        exact List.mem_cons_of_mem _ (List.mem_cons_self _ _))
    (by
      intro x hx
      simp only [c10xs, List.dropLast_cons₂, List.dropLast_single, List.mem_cons,
        List.not_mem_nil, or_false] at hx
      subst hx
      decide)

/-- C9: the completion threshold of a chunk-buffer entry is fixed by the
first chunk ingested for its message id — a later chunk with a different
`total` neither changes the stored `total` nor the threshold; a duplicate
sequence overwrites the stored data without changing the distinct-sequence
count; completion triggers exactly when the distinct-sequence count
reaches the first chunk's `total`. -/
theorem processIncomingRow_first_total (fp : List Nat) (buffer : Buffer) (now pk : Nat)
    (env : DbChunkEnvelope) (hs : env.s ≠ fp) :
    (bufGet buffer env.mid = none → env.total ≠ 1 →
      bufGet (processIncomingRow fp buffer now pk (.chunk env)).1 env.mid =
        some ⟨env.total, now, [(env.seq, env.d)], [pk]⟩) ∧
    (∀ entry, bufGet buffer env.mid = some entry →
      entry.chunks.length < entry.total →
      (((mapGet entry.chunks env.seq).isSome →
          (mapSet entry.chunks env.seq env.d).length = entry.chunks.length ∧
          mapGet (mapSet entry.chunks env.seq env.d) env.seq = some env.d ∧
          (processIncomingRow fp buffer now pk (.chunk env)).2 = .skip ∧
          bufGet (processIncomingRow fp buffer now pk (.chunk env)).1 env.mid =
            some ⟨entry.total, now, mapSet entry.chunks env.seq env.d, entry.pks ++ [pk]⟩) ∧
       (mapGet entry.chunks env.seq = none →
          (mapSet entry.chunks env.seq env.d).length = entry.chunks.length + 1 ∧
          (entry.chunks.length + 1 = entry.total ↔
            (processIncomingRow fp buffer now pk (.chunk env)).2 =
              .assembled ((List.range entry.total).foldl
                (fun acc i => acc ++ (mapGet (mapSet entry.chunks env.seq env.d) i).getD []) [])
                (entry.pks ++ [pk]))))) := by
  constructor
  · intro hget hnt
    rw [processIncomingRow_chunk_fresh fp buffer now pk env hs hget (Ne.symm hnt)]
    exact bufGet_bufSet_self _ _ _
  · intro entry hget hlt
    have hstep := processIncomingRow_chunk_existing fp buffer now pk env entry hs hget
    constructor
    · intro hdup
      have hkeys := mapSet_fst_of_mem entry.chunks env.seq env.d
        ((mapGet_isSome_iff _ _).mp hdup)
      have hlen : (mapSet entry.chunks env.seq env.d).length = entry.chunks.length := by
        have h1 : ((mapSet entry.chunks env.seq env.d).map Prod.fst).length =
            (entry.chunks.map Prod.fst).length := by rw [hkeys]
        simpa using h1
      have hnc : (mapSet entry.chunks env.seq env.d).length ≠ entry.total := by omega
      rw [if_neg hnc] at hstep
      refine ⟨hlen, mapGet_mapSet_self _ _ _, ?_, ?_⟩
      · rw [hstep]
      · rw [hstep]
        exact bufGet_bufSet_self _ _ _
    · intro hfreshseq
      have hkeys := mapSet_fst_of_not_mem entry.chunks env.seq env.d
        ((mapGet_eq_none_iff _ _).mp hfreshseq)
      have hlen : (mapSet entry.chunks env.seq env.d).length = entry.chunks.length + 1 := by
        have h1 : ((mapSet entry.chunks env.seq env.d).map Prod.fst).length =
            (entry.chunks.map Prod.fst).length + 1 := by
          rw [hkeys]
          simp
        simpa using h1
      refine ⟨hlen, ?_, ?_⟩
      · intro hc
        rw [if_pos (by omega)] at hstep
        rw [hstep]
      · intro hres
        by_contra hne
        rw [if_neg (by omega)] at hstep
        rw [hstep] at hres
        exact absurd hres (by simp)

/-- Existing entry and rows for the C9 witness: two of three chunks
received, a third chunk arriving with a different `total` field. -/
def c9entry : BufEntry := ⟨2, 0, [(0, [50])], [5]⟩

/-- Buffer for the C9 witness. -/
def c9buf : Buffer := [([7], c9entry)]

/-- A duplicate chunk (sequence 0 again) carrying a different `total`. -/
def c9dup : DbChunkEnvelope := ⟨[1], [7], 0, 99, [51]⟩

/-- Witness for C9: ingesting the duplicate reports `skip` and keeps the
original entry total. -/
theorem processIncomingRow_first_total_witness :
    (processIncomingRow [9] c9buf 3 6 (.chunk c9dup)).2 = .skip :=
  ((((processIncomingRow_first_total [9] c9buf 3 6 c9dup (by decide)).2 c9entry (by decide)
    (by decide)).1) (by decide)).2.2.1

/-- First and second chunk of the C6 counterexample transfer (3 chunks
expected in total). -/
def c6env0 : DbChunkEnvelope := ⟨[1], [7], 0, 3, [100]⟩

def c6env1 : DbChunkEnvelope := ⟨[1], [7], 1, 3, [101]⟩

/-- Buffer built by ingesting the first chunk at time 0 and the second
chunk at time 200000. -/
def c6buffer : Buffer :=
  (processIncomingRow [9] (processIncomingRow [9] [] 0 10 (.chunk c6env0)).1 200000 11
    (.chunk c6env1)).1

/-- C6 is false as stated: the entry's first chunk arrived at time 0,
which predates `now - maxAge = 301000 - 300000`, and fewer than `total`
chunks have been received, yet `cleanupStaleChunks` keeps the entry and
returns no row keys — eviction is keyed on `receivedAt`, which was
refreshed to 200000 by the second chunk. -/
theorem cleanupStale_firstSeen_cex :
    bufGet c6buffer [7] = some ⟨3, 200000, [(0, [100]), (1, [101])], [10, 11]⟩ ∧
    (2 : Nat) < 3 ∧ (0 : Nat) < 301000 - CHUNK_TIMEOUT ∧
    cleanupStaleChunks 301000 c6buffer = (c6buffer, []) := by decide

/-- C6 amended: eviction is keyed on `receivedAt` — the arrival time of
the most recent chunk, refreshed on every ingest — rather than the first
chunk's arrival time: an entry is removed, with exactly its accumulated
source row keys returned, iff `now - receivedAt > maxAge`; younger
entries are kept; and any entry present after an ingest at time `now`
has `receivedAt = now`. -/
theorem cleanupStaleChunks_by_receivedAt (now : Nat) (buffer : Buffer) :
    (∀ e ∈ buffer,
      (e ∈ (cleanupStaleChunks now buffer).1 ↔ ¬ CHUNK_TIMEOUT < now - e.2.receivedAt)) ∧
    (∀ pkv, pkv ∈ (cleanupStaleChunks now buffer).2 ↔
      ∃ e ∈ buffer, CHUNK_TIMEOUT < now - e.2.receivedAt ∧ pkv ∈ e.2.pks) ∧
    (∀ fp pk env entry, env.s ≠ fp →
      bufGet (processIncomingRow fp buffer now pk (.chunk env)).1 env.mid = some entry →
      entry.receivedAt = now) := by
  refine ⟨?_, ?_, ?_⟩
  · intro e he
    simp [cleanupStaleChunks, List.mem_filter, he]
  · intro pkv
    simp only [cleanupStaleChunks, List.mem_flatten, List.mem_map, List.mem_filter]
    constructor
    · rintro ⟨l, ⟨e, ⟨hee, hstale⟩, rfl⟩, hpk⟩
      exact ⟨e, hee, by simpa using hstale, hpk⟩
    · rintro ⟨e, hee, hstale, hpk⟩
      exact ⟨e.2.pks, ⟨e, ⟨hee, by simpa using hstale⟩, rfl⟩, hpk⟩
  · intro fp pk env entry hsne hget
    simp only [processIncomingRow, wireSender, if_neg hsne] at hget
    rcases hb : bufGet buffer env.mid with _ | b
    · rw [hb] at hget
      by_cases hcomp : (mapSet ([] : List (Nat × List Nat)) env.seq env.d).length = env.total
      · rw [if_pos hcomp] at hget
        rw [bufGet_bufDel_self] at hget
        exact absurd hget (by simp)
      · rw [if_neg hcomp] at hget
        rw [bufGet_bufSet_self] at hget
        obtain rfl := Option.some.inj hget
        rfl
    · rw [hb] at hget
      by_cases hcomp : (mapSet b.chunks env.seq env.d).length = b.total
      · rw [if_pos hcomp] at hget
        rw [bufGet_bufDel_self] at hget
        exact absurd hget (by simp)
      · rw [if_neg hcomp] at hget
        rw [bufGet_bufSet_self] at hget
        obtain rfl := Option.some.inj hget
        rfl

/-- Witness for the amended C6 at the concrete counterexample buffer. -/
theorem cleanupStaleChunks_by_receivedAt_witness :
    (10 ∈ (cleanupStaleChunks 301000 c6buffer).2) ↔
      ∃ e ∈ c6buffer, CHUNK_TIMEOUT < 301000 - e.2.receivedAt ∧ 10 ∈ e.2.pks :=
  (cleanupStaleChunks_by_receivedAt 301000 c6buffer).2.1 10

/-! ### Poll-cadence arbitration (the sync state machine of `useSupabase`) -/

/-- Scheduler-visible state of the sync session: whether sync is active,
whether the Realtime push subscription is confirmed (`isListening`),
the armed poll timeout's interval (if any), and whether a Realtime
channel object exists. -/
structure SyncState where
  isSyncing : Bool
  isListening : Bool
  pollTimer : Option Nat
  hasChannel : Bool
deriving DecidableEq

/-- `schedulePoll(interval)`: arms the timeout only while syncing. -/
def schedulePoll (st : SyncState) (interval : Nat) : SyncState :=
  if st.isSyncing then { st with pollTimer := some interval } else st

/-- `stopPollLoop()`: clears the armed timeout. -/
def stopPollLoop (st : SyncState) : SyncState := { st with pollTimer := none }

/-- `startPollLoop(interval)`: stop, poll once, re-arm. -/
def startPollLoop (st : SyncState) (interval : Nat) : SyncState :=
  schedulePoll (stopPollLoop st) interval

/-- `stopRealtime()`: removes the channel and clears `isListening`. -/
def stopRealtime (st : SyncState) : SyncState :=
  { st with hasChannel := false, isListening := false }

/-- The events driving the sync state machine: `startSync` / `stopSync`
calls, a poll timeout firing, and the Realtime subscribe callback
reporting `SUBSCRIBED` or `CHANNEL_ERROR`. -/
inductive SyncEvent where
  | startSync
  | pollTick
  | subscribed
  | channelError
  | stopSync
deriving DecidableEq

/-- One transition of the sync state machine, following `useSupabase`:
`startSync` (invoked by the application only when not already syncing)
starts the poll loop at the user interval and subscribes a Realtime
channel; a firing poll timeout re-arms at the backup interval iff
Realtime is active; `SUBSCRIBED` switches the poll loop to the backup
interval; `CHANNEL_ERROR` reverts it to the user interval; `stopSync`
tears everything down. -/
def syncStep (userInterval : Nat) (st : SyncState) : SyncEvent → SyncState
  | .startSync =>
      if st.isSyncing then st
      else
        let st1 := startPollLoop { st with isSyncing := true } userInterval
        { st1 with hasChannel := true }
  | .pollTick =>
      match st.pollTimer with
      | none => st
      | some _ =>
          schedulePoll { st with pollTimer := none }
            (if st.isListening then REALTIME_BACKUP_INTERVAL else userInterval)
  | .subscribed =>
      if st.hasChannel then
        startPollLoop { st with isListening := true } REALTIME_BACKUP_INTERVAL
      else st
  | .channelError =>
      if st.hasChannel then
        startPollLoop { st with isListening := false } userInterval
      else st
  | .stopSync =>
      stopPollLoop (stopRealtime { st with isSyncing := false })

/-- The initial sync state: stopped, no subscription, no timer. -/
def syncInit : SyncState := ⟨false, false, none, false⟩

/-- The state after a sequence of events from the initial state. -/
def syncRun (userInterval : Nat) (evs : List SyncEvent) : SyncState :=
  evs.foldl (syncStep userInterval) syncInit

/-- The cadence invariant: an armed poll timeout uses the 5-minute backup
interval exactly when the push subscription is confirmed, and the
user-configured interval otherwise; a stopped session has no timer and no
channel; without a channel the subscription cannot be confirmed. -/
def cadenceInv (u : Nat) (st : SyncState) : Prop :=
  (∀ iv, st.pollTimer = some iv →
      iv = if st.isListening then REALTIME_BACKUP_INTERVAL else u) ∧
  (st.isSyncing = false → st.pollTimer = none ∧ st.hasChannel = false) ∧
  (st.hasChannel = false → st.isListening = false)

theorem cadenceInv_step (u : Nat) (st : SyncState) (e : SyncEvent)
    (hinv : cadenceInv u st) : cadenceInv u (syncStep u st e) := by
  obtain ⟨sy, li, pt, hc⟩ := st
  obtain ⟨h1, h2, h3⟩ := hinv
  simp only [cadenceInv] at *
  cases e <;> cases sy <;> cases li <;> cases hc <;> cases pt <;>
    simp_all [syncStep, schedulePoll, startPollLoop, stopPollLoop, stopRealtime]

theorem cadenceInv_init (u : Nat) : cadenceInv u syncInit := by
  simp [cadenceInv, syncInit]

/-- C8: in every reachable state of the sync state machine, an armed poll
timeout is at the user-configured interval while the push subscription is
unconfirmed or errored, and at the 5-minute backup interval once the push
subscription is confirmed; confirming the subscription schedules the
backup interval, and losing it reverts the schedule to the
user-configured interval. -/
theorem syncRun_cadence (u : Nat) (evs : List SyncEvent) :
    cadenceInv u (syncRun u evs) ∧
    ((syncRun u evs).hasChannel = true →
      (syncStep u (syncRun u evs) .subscribed).pollTimer = some REALTIME_BACKUP_INTERVAL ∧
      (syncStep u (syncRun u evs) .subscribed).isListening = true ∧
      (syncStep u (syncRun u evs) .channelError).pollTimer = some u ∧
      (syncStep u (syncRun u evs) .channelError).isListening = false) := by
  have hrun : cadenceInv u (syncRun u evs) := by
    have hall : ∀ (l : List SyncEvent) (st : SyncState), cadenceInv u st →
        cadenceInv u (l.foldl (syncStep u) st) := by
      intro l
      induction l with
      | nil => exact fun st h => h
      | cons e l ihl => exact fun st h => ihl _ (cadenceInv_step u st e h)
    exact hall evs syncInit (cadenceInv_init u)
  refine ⟨hrun, ?_⟩
  intro hch
  obtain ⟨h1, h2, h3⟩ := hrun
  have hsy : (syncRun u evs).isSyncing = true := by
    by_contra hno
    have := (h2 (by simpa using hno)).2
    rw [hch] at this
    exact absurd this (by simp)
  rcases hst : syncRun u evs with ⟨sy, li, pt, hc⟩
  rw [hst] at hch hsy
  simp only at hch hsy
  subst hch
  subst hsy
  simp [syncStep, startPollLoop, stopPollLoop, schedulePoll]

/-- Witness for C8 at a concrete event sequence. -/
theorem syncRun_cadence_witness :
    cadenceInv 10000 (syncRun 10000 [SyncEvent.startSync, SyncEvent.subscribed]) :=
  (syncRun_cadence 10000 [SyncEvent.startSync, SyncEvent.subscribed]).1

end XChat
